import Mathlib

/-!
Verification development for the ramsql in-memory SQL engine.

The Go sources of the storage kernel (`engine/agnostic`), the parser
(`engine/parser`) and the executor (`engine/executor`) are shallowly
embedded below: pure Go functions become Lean functions, the mutable
`Relation`/`Engine` state becomes explicit records threaded through the
operations, and Go's `(value, error)` returns become `Except`.

Row handles: the Go kernel stores rows in a `container/list.List` and
identifies a row by its `*list.Element` pointer, which stays valid across
deletions of other rows.  The embedding replaces pointer handles by stable
numeric ids: `rows : List (Nat × Tuple)` paired with a `nextId` counter.
-/

namespace RamSql

/-- The canonical value domain (`engine/agnostic` stores `any`; `nil`
represents SQL NULL). -/
inductive SqlValue where
  | null
  | int (i : Int)
  | text (s : String)
  | bool (b : Bool)
  deriving DecidableEq, Repr

/-- `ForeignKey` from `engine/agnostic/foreign_key.go`. -/
structure ForeignKey where
  name : String := ""
  localColumns : List String := []
  refSchema : String := ""
  refRelation : String := ""
  refColumns : List String := []
  deriving DecidableEq, Repr

/-- `NewForeignKey` from `foreign_key.go`. -/
def NewForeignKey (name : String) : ForeignKey :=
  { name, localColumns := [], refColumns := [] }

/-- `ForeignKey.WithLocalColumn` from `foreign_key.go`. -/
def ForeignKey.WithLocalColumn (fk : ForeignKey) (col : String) : ForeignKey :=
  { fk with localColumns := fk.localColumns ++ [col] }

/-- `ForeignKey.WithRefSchema` from `foreign_key.go`. -/
def ForeignKey.WithRefSchema (fk : ForeignKey) (schema : String) : ForeignKey :=
  { fk with refSchema := schema }

/-- `ForeignKey.WithRefRelation` from `foreign_key.go`. -/
def ForeignKey.WithRefRelation (fk : ForeignKey) (relation : String) : ForeignKey :=
  { fk with refRelation := relation }

/-- `ForeignKey.WithRefColumn` from `foreign_key.go`. -/
def ForeignKey.WithRefColumn (fk : ForeignKey) (col : String) : ForeignKey :=
  { fk with refColumns := fk.refColumns ++ [col] }

/-- Modelled from the spec: `Attribute` (`engine/agnostic/attribute.go` is
not among the provided sources; fields follow §3 "Attribute:
`(name, type_name, auto_increment?, default_value_or_thunk?, unique?,
foreign_key?)`" and the uses in `relation.go` and `foreign_key.go`). -/
structure Attribute where
  name : String
  typeName : String
  autoIncrement : Bool := false
  defaultValue : Option SqlValue := none
  unique : Bool := false
  fk : Option ForeignKey := none
  deriving DecidableEq, Repr

/-- `NewAttribute` (constructor used throughout the sources). -/
def NewAttribute (name typeName : String) : Attribute :=
  { name, typeName }

/-- `Attribute.WithAutoIncrement`. -/
def Attribute.WithAutoIncrement (a : Attribute) : Attribute :=
  { a with autoIncrement := true }

/-- `Attribute.WithUnique`. -/
def Attribute.WithUnique (a : Attribute) : Attribute :=
  { a with unique := true }

/-- `Attribute.WithForeignKeyStruct` (attaches a whole `ForeignKey`). -/
def Attribute.WithForeignKeyStruct (a : Attribute) (fk : ForeignKey) : Attribute :=
  { a with fk := some fk }

/-- `Tuple` from `engine/agnostic`: an ordered list of values aligned with
the relation's attribute order. -/
structure Tuple where
  values : List SqlValue
  deriving DecidableEq, Repr

/-- `NewTuple` (used by `SingleRowScanner.Exec` in `scanner.go`). -/
def NewTuple : Tuple := ⟨[]⟩

/-- Modelled from the spec: one key of a hash index
(§3 "Index. `HashIndex(name, relation, attrs[], attr_indices[])`: mapping
from a tuple of attribute values to one or more row handles";
`engine/agnostic/index.go` is not among the provided sources). -/
structure IndexEntry where
  key : List SqlValue
  handles : List Nat
  deriving DecidableEq, Repr

/-- Modelled from the spec: `HashIndex` (§3).  `attrsName` and `attrsIdx`
mirror the fields read by `relation.go` (`hi.attrsName`); `entries` is the
key → handles mapping. -/
structure HashIndex where
  name : String
  relation : String
  attrsName : List String
  attrsIdx : List Nat
  entries : List IndexEntry
  deriving DecidableEq, Repr

/-- `NewHashIndex` as called from `relation.go` (a fresh index holds no
entries). -/
def NewHashIndex (name relation : String) (attrsName : List String)
    (attrsIdx : List Nat) : HashIndex :=
  { name, relation, attrsName, attrsIdx, entries := [] }

/-- Modelled from the spec: `HashIndex.Get` returns the row handles stored
under a key, or nothing when the key is absent (`relation.go` tests the
returned entry against `nil`). -/
def HashIndex.Get (ix : HashIndex) (vals : List SqlValue) : Option (List Nat) :=
  (ix.entries.find? (fun e => e.key == vals)).map IndexEntry.handles

/-- `Relation` from `engine/agnostic/relation.go`.  The `attrIndex` map is
represented by the lookup function `attrIndexOf` below; `rows` carries
stable numeric handles in place of Go's `*list.Element` pointers. -/
structure Relation where
  name : String
  schema : String
  attributes : List Attribute
  pk : List Nat
  rows : List (Nat × Tuple)
  nextId : Nat
  indexes : List HashIndex
  deriving DecidableEq, Repr

/-- The `attrIndex` map built in `NewRelation` (`for i, a := range
r.attributes { r.attrIndex[a.name] = i }`): the last attribute with a given
name wins, a missing name yields `none`. -/
def attrIndexOf (attrs : List Attribute) (name : String) : Option Nat :=
  attrs.enum.foldl (fun acc p => if p.2.name == name then some p.1 else acc) none

/-- The inner comparison of `Relation.hasIndexOn` (`relation.go`): same
length and pointwise equal attribute names. -/
def hashIndexMatches (hiAttrs attrs : List String) : Bool :=
  hiAttrs.length == attrs.length && (hiAttrs.zip attrs).all (fun p => p.1 == p.2)

/-- `Relation.hasIndexOn` from `relation.go`: is there already a hash index
on the exact attribute list (same names, same order)? -/
def Relation.hasIndexOn (r : Relation) (attrs : List String) : Bool :=
  r.indexes.any (fun ix => hashIndexMatches ix.attrsName attrs)

/-- `Relation.ensureHashIndex` from `relation.go`: create a hash index on
`attrs` unless empty, already present, or some attribute is unknown (the Go
loop returns early in that case, discarding the partial index). -/
def Relation.ensureHashIndex (r : Relation) (pre : String) (attrs : List String) : Relation :=
  if attrs.isEmpty then r
  else if r.hasIndexOn attrs then r
  else
    match attrs.mapM (fun a => attrIndexOf r.attributes a) with
    | none => r
    | some idxs =>
      let iname := pre ++ r.schema ++ "_" ++ r.name ++ "_" ++ String.intercalate "_" attrs
      { r with indexes := r.indexes ++ [NewHashIndex iname r.name attrs idxs] }

/-- `fkSignature` from `foreign_key.go`. -/
def fkSignature (fk : ForeignKey) : String :=
  String.intercalate "|"
    [fk.refSchema, fk.refRelation,
     String.intercalate "," fk.localColumns,
     String.intercalate "," fk.refColumns]

/-- The `seen` map of `uniqueRelationFKs` (`foreign_key.go`), as an
association list in first-insertion order. -/
def fkSeen (attrs : List Attribute) : List (String × ForeignKey) :=
  attrs.foldl
    (fun seen a =>
      match a.fk with
      | none => seen
      | some fk0 =>
        let fk := if fk0.localColumns.isEmpty
                  then { fk0 with localColumns := [a.name] } else fk0
        let sig := fkSignature fk
        if (seen.find? (fun p => p.1 == sig)).isSome then seen
        else seen ++ [(sig, fk)])
    []

/-- Insertion into a `<`-sorted list of strings (`sort.Strings` in
`uniqueRelationFKs`). -/
def strInsert (s : String) : List String → List String
  | [] => [s]
  | x :: xs => if s < x then s :: x :: xs else x :: strInsert s xs

/-- `sort.Strings` from `uniqueRelationFKs`. -/
def strSort (l : List String) : List String := l.foldr strInsert []

/-- `uniqueRelationFKs` from `foreign_key.go`: group attribute-level FKs by
signature, keep one representative per group, return them sorted by
signature. -/
def uniqueRelationFKs (r : Relation) : List ForeignKey :=
  let seen := fkSeen r.attributes
  (strSort (seen.map Prod.fst)).filterMap
    (fun k => (seen.find? (fun p => p.1 == k)).map Prod.snd)

/-- `NewRelation` from `relation.go`: build the attribute map and `pk`
indices (a missing pk name yields Go's map zero value `0`), then create the
deduplicated pk / unique / foreign-key hash indexes.  The Go function never
returns an error. -/
def NewRelation (schema name : String) (attributes : List Attribute)
    (pk : List String) : Relation :=
  let r0 : Relation :=
    { name, schema, attributes,
      pk := pk.map (fun k => (attrIndexOf attributes k).getD 0),
      rows := [], nextId := 0, indexes := [] }
  let r1 := if r0.pk.isEmpty then r0 else r0.ensureHashIndex "pk_" pk
  let r2 := r1.attributes.foldl
    (fun r a => if a.unique then r.ensureHashIndex "unique_" [a.name] else r) r1
  (uniqueRelationFKs r2).foldl
    (fun r fk =>
      if fk.localColumns.isEmpty then r else r.ensureHashIndex "fk_" fk.localColumns)
    r2

/-- `strings.HasPrefix s "pk"` as used by `Relation.CheckPrimaryKey`
(`relation.go`), expressed on the character list of `s`. -/
def hasPkNamePre (s : String) : Bool :=
  s.data.take 2 == ['p', 'k']

/-- `Relation.CheckPrimaryKey` from `relation.go`: no primary key means no
conflict; otherwise probe the first index whose name starts with `"pk"`
with the candidate tuple's primary-key values.  `.ok true` means the tuple
can be inserted, `.ok false` reports a conflict. -/
def Relation.CheckPrimaryKey (r : Relation) (t : Tuple) : Except String Bool :=
  if r.pk.isEmpty then .ok true
  else
    match r.indexes.find? (fun ix => hasPkNamePre ix.name) with
    | none => .error "primary key index not found"
    | some index =>
      let vals := r.pk.map (fun idx => t.values.getD idx SqlValue.null)
      match index.Get vals with
      | none => .ok true
      | some _ => .ok false

/-! ### Index maintenance and row insertion

`engine/agnostic/transaction.go` and `index.go` are not among the provided
sources; the row/index mutation primitives below are modelled from the
spec (§4.4 `insert`: "updating all indexes, appending to `rows`"). -/

/-- The key of a tuple under an index: the indexed attribute values in
index order (§3 "mapping from a tuple of attribute values to ... row
handles"). -/
def HashIndex.keyOf (ix : HashIndex) (t : Tuple) : List SqlValue :=
  ix.attrsIdx.map (fun i => t.values.getD i SqlValue.null)

/-- Modelled from the spec: adding a row handle to a hash index — append
the handle under an existing key, or create a fresh entry for a new key. -/
def entriesAdd (key : List SqlValue) (h : Nat) : List IndexEntry → List IndexEntry
  | [] => [{ key, handles := [h] }]
  | e :: es =>
    if e.key == key then { e with handles := e.handles ++ [h] } :: es
    else e :: entriesAdd key h es

/-- Modelled from the spec: `HashIndex.Add` for one inserted row. -/
def HashIndex.Add (ix : HashIndex) (t : Tuple) (h : Nat) : HashIndex :=
  { ix with entries := entriesAdd (ix.keyOf t) h ix.entries }

/-- Modelled from the spec: the state change of `insert` (§4.4): append the
tuple to `rows` under a fresh handle and update every index.  Constraint
checks are modelled separately (`Relation.checkedInsertRow`). -/
def Relation.insertRow (r : Relation) (t : Tuple) : Relation :=
  { r with
    rows := r.rows ++ [(r.nextId, t)],
    nextId := r.nextId + 1,
    indexes := r.indexes.map (fun ix => ix.Add t r.nextId) }

/-- `strings.HasPrefix s "unique_"`-style detection of the kernel's unique
indexes (`relation.go` names them `unique_…`), on the character list. -/
def hasUniqueNamePre (s : String) : Bool :=
  s.data.take 7 == ['u', 'n', 'i', 'q', 'u', 'e', '_']

/-- Modelled from the spec: the UNIQUE/PK conflict checks of `insert`
(§4.4): the candidate key is probed in the primary-key index (via
`Relation.CheckPrimaryKey` from `relation.go`) and in every unique-column
index; a hit is a `unique constraint violation`. -/
def Relation.checkedInsertRow (r : Relation) (t : Tuple) : Except String Relation :=
  match r.CheckPrimaryKey t with
  | .error e => .error e
  | .ok false => .error "unique constraint violation"
  | .ok true =>
    if r.indexes.any (fun ix =>
        hasUniqueNamePre ix.name && (ix.Get (ix.keyOf t)).isSome) then
      .error "unique constraint violation"
    else
      .ok (r.insertRow t)

/-- A relation populated by a sequence of checked inserts (failed inserts
leave the relation unchanged, §7). -/
def Relation.applyInserts (r : Relation) (ts : List Tuple) : Relation :=
  ts.foldl
    (fun r t =>
      match r.checkedInsertRow t with
      | .ok r' => r'
      | .error _ => r)
    r

/-! ### Foreign-key checks

The FK enforcement lives in `engine/agnostic/transaction.go`, which is not
among the provided sources; the checks are modelled from the spec
(§4.5 "Constraint enforcement details"), on top of the real
`uniqueRelationFKs` (`foreign_key.go`) and the relation/index embedding. -/

/-- The referenced columns of a foreign key: the explicit `ref_cols`, or
the parent's primary-key attribute names when empty (§3 "`ref_cols` empty
means reference the primary key"). -/
def fkRefCols (fk : ForeignKey) (parent : Relation) : List String :=
  if fk.refColumns.isEmpty then
    parent.pk.map (fun i => ((parent.attributes.get? i).map Attribute.name).getD "")
  else fk.refColumns

/-- Modelled from the spec: FK existence check on INSERT/UPDATE (§4.5):
"look up the composed value in the parent relation's PK (or specified
`ref_cols`) index; absence returns `foreign key violation`". -/
def checkFkExistence (child : Relation) (fk : ForeignKey) (parent : Relation)
    (t : Tuple) : Except String Unit :=
  let vals := fk.localColumns.map
    (fun c => t.values.getD ((attrIndexOf child.attributes c).getD 0) SqlValue.null)
  match parent.indexes.find? (fun ix => ix.attrsName == fkRefCols fk parent) with
  | none => .error "foreign key violation"
  | some ix =>
    match ix.Get vals with
    | none => .error "foreign key violation"
    | some _ => .ok ()

/-- The foreign keys of `child` that reference `parent` (an empty
`ref_schema` means the same schema, §3). -/
def fksReferencing (child parent : Relation) : List ForeignKey :=
  (uniqueRelationFKs child).filter
    (fun fk => fk.refRelation == parent.name &&
      (fk.refSchema == "" || fk.refSchema == parent.schema))

/-- The parent row's referenced values for one foreign key (§4.5 "probe the
child's FK index with the parent row's referenced values"). -/
def fkParentVals (fk : ForeignKey) (parent : Relation) (t : Tuple) : List SqlValue :=
  (fkRefCols fk parent).map
    (fun c => t.values.getD ((attrIndexOf parent.attributes c).getD 0) SqlValue.null)

/-- Modelled from the spec: the per-FK RESTRICT probe (§4.5): any hit in
the child's FK index is a `foreign key restrict` error. -/
def restrictProbe (parent child : Relation) (t : Tuple) (fk : ForeignKey) : Bool :=
  match child.indexes.find? (fun ix => ix.attrsName == fk.localColumns) with
  | none => false
  | some ix => (ix.Get (fkParentVals fk parent t)).isSome

/-- Modelled from the spec: FK RESTRICT on the parent before DELETE or
UPDATE (§4.5): "iterate every relation whose FK references this relation;
for each such FK, probe the child's FK index with the parent row's
referenced values; any hit returns `foreign key restrict`.  Composite FKs
must match ALL referenced columns jointly." -/
def checkFkRestrict (parent child : Relation) (t : Tuple) : Except String Unit :=
  if (fksReferencing child parent).any (restrictProbe parent child t) then
    .error "foreign key restrict"
  else .ok ()

/-! ### AST nodes, predicates and scanners -/

/-- The token kinds of `parser` needed here (`parser.NullToken`,
`parser.NotToken`; other kinds are collapsed into `other`). -/
inductive Token where
  | NullToken
  | NotToken
  | other
  deriving DecidableEq, Repr

/-- `parser.Decl`: the uniform AST node — a token kind, a lexeme, and
ordered children (§4.2). -/
inductive Decl where
  | mk (token : Token) (lexeme : String) (children : List Decl)

/-- The `Token` field of a `Decl`. -/
def Decl.token : Decl → Token
  | .mk t _ _ => t

/-- The child list of a `Decl`. -/
def Decl.children : Decl → List Decl
  | .mk _ _ cs => cs

/-- `agnostic.ValueFunctor` operand kinds used by the claims:
`NewConstValueFunctor` and `NewAttributeValueFunctor` (`executor/tx.go`).
A `const .null` models Go's `NewConstValueFunctor(nil)`. -/
inductive ValueFunctor where
  | const (v : SqlValue)
  | attr (relation name : String)
  deriving DecidableEq, Repr

/-- `agnostic.PredicateType` (§4.4: `op ∈ {Eq, Neq, Le, Leq, Ge, Geq}`). -/
inductive PredicateType where
  | Eq | Neq | Le | Leq | Ge | Geq
  deriving DecidableEq, Repr

/-- The predicate variants reached by the embedded executor paths:
`NewComparisonPredicate`, `NewEqPredicate`, `NewNotPredicate`,
`NewTruePredicate` (`executor/tx.go`). -/
inductive Predicate where
  | truePred
  | comparison (l : ValueFunctor) (op : PredicateType) (r : ValueFunctor)
  | eqPred (l r : ValueFunctor)
  | notPred (p : Predicate)
  deriving DecidableEq, Repr

/-- Modelled from the spec: evaluating a `ValueFunctor` against a row
(§4.4 "Operands are `ValueFunctor`"): a constant yields its value, an
attribute operand reads the column of that name from the row
(`engine/agnostic/predicate.go` is not among the provided sources). -/
def ValueFunctor.eval (f : ValueFunctor) (cols : List String) (t : Tuple) : SqlValue :=
  match f with
  | .const v => v
  | .attr _ name =>
    match cols.indexOf? name with
    | none => SqlValue.null
    | some i => t.values.getD i SqlValue.null

/-- Modelled from the spec: the ordering on non-NULL values used by
comparison predicates (§4.3; integers numerically, text
lexicographically). -/
def sqlLt (a b : SqlValue) : Bool :=
  match a, b with
  | .int i, .int j => i < j
  | .text s, .text u => s < u
  | .bool x, .bool y => !x && y
  | _, _ => false

/-- Modelled from the spec: comparison semantics (§4.3 "NULL compares as
unequal to every value including itself"): a NULL operand makes equality
false and distinctness true, and defeats every ordering comparison. -/
def compEval (op : PredicateType) (a b : SqlValue) : Bool :=
  match a, b with
  | .null, _ | _, .null =>
    match op with
    | .Neq => true
    | _ => false
  | a, b =>
    match op with
    | .Eq => a == b
    | .Neq => !(a == b)
    | .Le => sqlLt a b
    | .Leq => sqlLt a b || a == b
    | .Ge => sqlLt b a
    | .Geq => sqlLt b a || a == b

/-- Modelled from the spec: predicate evaluation (§4.4).  The `eqPred`
variant (Go `NewEqPredicate`, reached only from `isExecutor` for
`IS [NOT] NULL`) is plain value equality, under which NULL equals NULL;
the `comparison` variant (Go `NewComparisonPredicate`, used for every SQL
comparison operator) follows `compEval`. -/
def Predicate.eval (p : Predicate) (cols : List String) (t : Tuple) : Bool :=
  match p with
  | .truePred => true
  | .comparison l op r => compEval op (l.eval cols t) (r.eval cols t)
  | .eqPred l r => l.eval cols t == r.eval cols t
  | .notPred q => !(q.eval cols t)

/-- `isExecutor` from `executor/tx.go`: translate `IS NULL` into
`NewEqPredicate(attr, Const nil)` and `IS NOT NULL` into its negation;
anything else is a parsing error. -/
def isExecutor (rname aname : String) (isDecl : Decl) : Except String Predicate :=
  match isDecl.children with
  | [] => .error "parsing error"
  | c0 :: rest =>
    if c0.token = Token.NullToken then
      .ok (.eqPred (.attr rname aname) (.const SqlValue.null))
    else
      match rest with
      | c1 :: _ =>
        if c0.token = Token.NotToken ∧ c1.token = Token.NullToken then
          .ok (.notPred (.eqPred (.attr rname aname) (.const SqlValue.null)))
        else .error "parsing error"
      | [] => .error "parsing error"

/-- `RelationScanner.Exec` from `scanner.go`: iterate the source rows and
keep those on which every predicate evaluates to true. -/
def RelationScannerExec (cols : List String) (rows : List Tuple)
    (preds : List Predicate) : List String × List Tuple :=
  (cols, rows.filter (fun t => preds.all (fun p => p.eval cols t)))

/-- `SingleRowScanner.Exec` from `scanner.go`: a single empty tuple with no
columns (for SELECT without FROM). -/
def SingleRowScannerExec : List String × List Tuple :=
  ([], [NewTuple])

/-- Modelled from the spec: evaluation of a SELECT without FROM (§4.4
`query`: "If no FROM clause is present, use a `SingleRowScanner` that
emits one empty tuple"): scan the single-row source with the (absent)
predicates, then project the constant select items onto every surviving
row (`NewConstSelector` in `executor/tx.go`). -/
def selectWithoutFrom (items : List SqlValue) : List (List SqlValue) :=
  let src := SingleRowScannerExec
  let scanned := RelationScannerExec src.1 src.2 []
  scanned.2.map (fun _ => items)

/-! ### LIMIT/OFFSET -/

/-- A LIMIT or OFFSET operand: a numeric literal or a 1-based positional
parameter `$i` (§4.2 "Parameter forms"). -/
inductive NumOrParam where
  | lit (n : Nat)
  | param (i : Nat)
  deriving DecidableEq, Repr

/-- Modelled from the spec: resolving a LIMIT/OFFSET operand against the
bound argument vector (§4.4 "LIMIT/OFFSET parameters may be numeric
literals or positional parameters bound before execution"). -/
def resolveNum (args : List SqlValue) : NumOrParam → Except String Nat
  | .lit n => .ok n
  | .param i =>
    match args.get? (i - 1) with
    | some (.int k) => .ok k.toNat
    | _ => .error "parameter not provided"

/-- Modelled from the spec: Sorter `Offset(n)` (§4.4 plan-node
primitives). -/
def offsetSorter (n : Nat) (rows : List Tuple) : List Tuple :=
  rows.drop n

/-- Modelled from the spec: Sorter `Limit(n)` (§4.4). -/
def limitSorter (n : Nat) (rows : List Tuple) : List Tuple :=
  rows.take n

/-- Modelled from the spec: a `SELECT * FROM r LIMIT l OFFSET o` plan over
a relation's rows, with the fixed sorter order OFFSET → DISTINCT → ORDER BY
→ LIMIT (§4.4; DISTINCT and ORDER BY absent here). -/
def limitOffsetQuery (r : Relation) (limit offset : NumOrParam)
    (args : List SqlValue) : Except String (List Tuple) := do
  let l ← resolveNum args limit
  let o ← resolveNum args offset
  pure (limitSorter l (offsetSorter o (r.rows.map Prod.snd)))

/-! ### Schemas and the engine -/

/-- `Schema`: mapping `relation_name → Relation` (§3; `schema.go` is not
among the provided sources), modelled as an association list in creation
order. -/
structure Schema where
  name : String
  relations : List (String × Relation)
  deriving DecidableEq, Repr

/-- `NewSchema` (used by `NewEngine`). -/
def NewSchema (name : String) : Schema :=
  { name, relations := [] }

/-- Modelled from the spec: `Schema.Add` — map assignment (overwrite an
existing binding, else append). -/
def Schema.Add (s : Schema) (name : String) (r : Relation) : Schema :=
  match s.relations.findIdx? (fun p => p.1 == name) with
  | some i => { s with relations := s.relations.set i (name, r) }
  | none => { s with relations := s.relations ++ [(name, r)] }

/-- `Engine` from the engine source file (`part_004`): the schema map and
the search path. -/
structure Engine where
  schemas : List (String × Schema)
  searchPath : List String
  deriving DecidableEq, Repr

/-- `DefaultSchema` from the engine source file. -/
def DefaultSchema : String := "public"

/-- `NewEngine` from the engine source file: the `public` schema, the
search path, and `information_schema` with its `tables` relation. -/
def NewEngine : Engine :=
  let infoAttrs := [NewAttribute "table_schema" "varchar",
                    NewAttribute "table_name" "varchar",
                    NewAttribute "table_type" "varchar"]
  let info := (NewSchema "information_schema").Add "tables"
    (NewRelation "information_schema" "tables" infoAttrs [])
  { schemas := [(DefaultSchema, NewSchema DefaultSchema),
                ("information_schema", info)],
    searchPath := [DefaultSchema] }

/-- `Engine.dropSchema` from the engine source file: error when the schema
does not exist, otherwise remove it (unconditionally) and return it. -/
def Engine.dropSchema (e : Engine) (name : String) : Except String (Engine × Schema) :=
  match e.schemas.find? (fun p => p.1 == name) with
  | none => .error ("schema does not exist: " ++ name)
  | some p =>
    .ok ({ e with schemas := e.schemas.eraseP (fun q => q.1 == name) }, p.2)

/-! ### Transactions, the change log, and rollback

`engine/agnostic/transaction.go` is not among the provided sources.  The
transaction is modelled from the spec: §3 "Transaction. `(engine,
change_log, committed?)`.  The change log records undo records for each
mutation in order … `rollback` (applies inverse operations in reverse)",
§9 "model it as a vector of … a tagged `Undo` enum applied in reverse;
ensure every mutating kernel path appends an entry before returning
success". -/

/-- Modify the element at position `i` (out of range: unchanged). -/
def listModify (l : List α) (i : Nat) (f : α → α) : List α :=
  match l.get? i with
  | none => l
  | some a => l.set i (f a)

/-- Does the first entry with this key carry this handle? -/
def entriesHasHandle (key : List SqlValue) (h : Nat) : List IndexEntry → Bool
  | [] => false
  | e :: es =>
    if e.key == key then e.handles.contains h else entriesHasHandle key h es

/-- Modelled from the spec: removing one row handle from a hash index on
DELETE (§4.4 "Remove from indexes"): erase the handle from the first entry
with the row's key, dropping the entry when it empties.  Also returns the
undo record's positional information: the entry position, and the handle's
position inside the entry (`none` when the whole entry was dropped). -/
def entriesRemoveInfo (key : List SqlValue) (h : Nat) :
    List IndexEntry → List IndexEntry × Option (Nat × Option Nat)
  | [] => ([], none)
  | e :: es =>
    if e.key == key then
      let hs := e.handles.erase h
      if hs.isEmpty then (es, some (0, none))
      else (({ e with handles := hs }) :: es, some (0, some (e.handles.indexOf h)))
    else
      let r := entriesRemoveInfo key h es
      (e :: r.1, r.2.map (fun q => (q.1 + 1, q.2)))

/-- Applying a removal undo record: re-insert the handle (or the whole
entry) at its recorded position. -/
def entriesRestoreInfo (key : List SqlValue) (h : Nat) :
    Option (Nat × Option Nat) → List IndexEntry → List IndexEntry
  | none, es => es
  | some (0, none), es => ⟨key, [h]⟩ :: es
  | some (0, some _), [] => []
  | some (0, some hp), e :: es => ({ e with handles := e.handles.insertIdx hp h }) :: es
  | some (_ + 1, _), [] => []
  | some (ep + 1, info), e :: es => e :: entriesRestoreInfo key h (some (ep, info)) es

/-- Undoing `entriesAdd`: drop the last handle of the first entry with the
key (the one the insertion appended), dropping the entry when it empties. -/
def entriesUnAdd (key : List SqlValue) : List IndexEntry → List IndexEntry
  | [] => []
  | e :: es =>
    if e.key == key then
      let hs := e.handles.dropLast
      if hs.isEmpty then es else ({ e with handles := hs }) :: es
    else e :: entriesUnAdd key es

/-- Modelled from the spec: the state change of `delete` for one row
(§4.4): remove the row's handle from every index and splice the row out,
returning the undo record's payload (row position, tuple, per-index
positional info). -/
def Relation.deleteRowById (r : Relation) (id : Nat) :
    Except String (Relation × Nat × Tuple × List (Option (Nat × Option Nat))) :=
  match r.rows.findIdx? (fun p => p.1 == id) with
  | none => .error "row not found"
  | some rowPos =>
    match r.rows.get? rowPos with
    | none => .error "row not found"
    | some (_, t) =>
      let res := r.indexes.map (fun ix => entriesRemoveInfo (ix.keyOf t) id ix.entries)
      .ok ({ r with
              rows := r.rows.eraseIdx rowPos,
              indexes := (r.indexes.zip res).map
                (fun p => { p.1 with entries := p.2.1 }) },
           rowPos, t, res.map Prod.snd)

/-- The inverse of `Relation.deleteRowById`, applied on `rollback`. -/
def Relation.undoDelete (r : Relation) (rowPos id : Nat) (t : Tuple)
    (info : List (Option (Nat × Option Nat))) : Relation :=
  { r with
    rows := r.rows.insertIdx rowPos (id, t),
    indexes := (r.indexes.zip info).map
      (fun p => { p.1 with entries := entriesRestoreInfo (p.1.keyOf t) id p.2 p.1.entries }) }

/-- The inverse of `Relation.insertRow`, applied on `rollback`: drop the
appended row, roll the id counter back, and remove the appended handle
from every index. -/
def Relation.undoInsert (r : Relation) (t : Tuple) : Relation :=
  { r with
    rows := r.rows.dropLast,
    nextId := r.nextId - 1,
    indexes := r.indexes.map
      (fun ix => { ix with entries := entriesUnAdd (ix.keyOf t) ix.entries }) }

/-- Modelled from the spec: the state change of `update` for one row
(§4.4): replace the value slots in place and re-insert the row into the
affected indexes (here: remove the old key's handle, add the new key's),
returning the undo payload (row position, prior values, per-index
positional info). -/
def Relation.updateRowById (r : Relation) (id : Nat) (newVals : List SqlValue) :
    Except String (Relation × Nat × List SqlValue × List (Option (Nat × Option Nat))) :=
  match r.rows.findIdx? (fun p => p.1 == id) with
  | none => .error "row not found"
  | some rowPos =>
    match r.rows.get? rowPos with
    | none => .error "row not found"
    | some (_, t) =>
      let res := r.indexes.map (fun ix =>
        let rm := entriesRemoveInfo (ix.keyOf t) id ix.entries
        (entriesAdd (ix.keyOf ⟨newVals⟩) id rm.1, rm.2))
      .ok ({ r with
              rows := r.rows.set rowPos (id, ⟨newVals⟩),
              indexes := (r.indexes.zip res).map
                (fun p => { p.1 with entries := p.2.1 }) },
           rowPos, t.values, res.map Prod.snd)

/-- The inverse of `Relation.updateRowById`, applied on `rollback`:
restore the prior values and invert the index re-keying (undo the new
key's addition, restore the old key's handle at its recorded position). -/
def Relation.undoUpdate (r : Relation) (rowPos id : Nat) (oldVals : List SqlValue)
    (info : List (Option (Nat × Option Nat))) : Relation :=
  match r.rows.get? rowPos with
  | none => r
  | some (_, tNew) =>
    { r with
      rows := r.rows.set rowPos (id, ⟨oldVals⟩),
      indexes := (r.indexes.zip info).map
        (fun p =>
          { p.1 with entries :=
              (entriesRestoreInfo (p.1.keyOf ⟨oldVals⟩) id p.2
                (entriesUnAdd (p.1.keyOf tNew) p.1.entries)) }) }

/-- A kernel mutation recorded against a transaction (§4.4 operations). -/
inductive Mutation where
  | createSchema (name : String)
  | dropSchema (name : String)
  | createRelation (schema rel : String) (attrs : List Attribute) (pk : List String)
  | dropRelation (schema rel : String)
  | insertRow (schema rel : String) (t : Tuple)
  | deleteRow (schema rel : String) (id : Nat)
  | updateRow (schema rel : String) (id : Nat) (vals : List SqlValue)
  deriving DecidableEq, Repr

/-- One change-log record: the inverse operation of a mutation (§3
"change log records undo records for each mutation in order"). -/
inductive UndoRec where
  | uDropLastSchema
  | uReinsertSchema (pos : Nat) (name : String) (s : Schema)
  | uDropLastRelation (sp : Nat)
  | uSetRelation (sp rp : Nat) (name : String) (r : Relation)
  | uReinsertRelation (sp rp : Nat) (name : String) (r : Relation)
  | uUndoInsert (sp rp : Nat) (t : Tuple)
  | uUndoDelete (sp rp rowPos id : Nat) (t : Tuple) (info : List (Option (Nat × Option Nat)))
  | uUndoUpdate (sp rp rowPos id : Nat) (oldVals : List SqlValue)
      (info : List (Option (Nat × Option Nat)))
  deriving Repr

/-- Position of a schema in the engine's schema map. -/
def Engine.schemaIdx (e : Engine) (name : String) : Option Nat :=
  e.schemas.findIdx? (fun p => p.1 == name)

/-- Position of a relation in a schema. -/
def Schema.relIdx (s : Schema) (name : String) : Option Nat :=
  s.relations.findIdx? (fun p => p.1 == name)

/-- Modify the schema at a position, keeping its map key. -/
def Engine.modifySchema (e : Engine) (sp : Nat) (f : Schema → Schema) : Engine :=
  { e with schemas := listModify e.schemas sp (fun p => (p.1, f p.2)) }

/-- Modify the relation at a position, keeping its map key. -/
def Schema.modifyRel (s : Schema) (rp : Nat) (f : Relation → Relation) : Schema :=
  { s with relations := listModify s.relations rp (fun p => (p.1, f p.2)) }

/-- Run a relation-level mutation at `(schema, rel)`, producing the new
engine and the undo record built from the returned payload. -/
def Engine.atRelation (e : Engine) (schema rel : String)
    (f : Relation → Except String (Relation × α))
    (mk : Nat → Nat → α → UndoRec) : Except String (Engine × UndoRec) :=
  match e.schemaIdx schema with
  | none => .error "schema does not exist"
  | some sp =>
    match e.schemas.get? sp with
    | none => .error "schema does not exist"
    | some (_, s) =>
      match s.relIdx rel with
      | none => .error "relation does not exist"
      | some rp =>
        match s.relations.get? rp with
        | none => .error "relation does not exist"
        | some (_, r) =>
          match f r with
          | .error err => .error err
          | .ok (r', a) =>
            .ok (e.modifySchema sp (fun s => s.modifyRel rp (fun _ => r')),
                 mk sp rp a)

/-- Modelled from the spec: apply one kernel mutation, returning the new
engine state and the change-log record for it (§9 "ensure every mutating
kernel path appends an entry before returning success").  A failing
mutation leaves the state unchanged (§7). -/
def applyMutation (e : Engine) : Mutation → Except String (Engine × UndoRec)
  | .createSchema name =>
    match e.schemaIdx name with
    | some _ => .error "schema already exists"
    | none =>
      .ok ({ e with schemas := e.schemas ++ [(name, NewSchema name)] },
           .uDropLastSchema)
  | .dropSchema name =>
    match e.schemaIdx name with
    | none => .error "schema does not exist"
    | some sp =>
      match e.schemas.get? sp with
      | none => .error "schema does not exist"
      | some (nm, s) =>
        .ok ({ e with schemas := e.schemas.eraseIdx sp }, .uReinsertSchema sp nm s)
  | .createRelation schema rel attrs pk =>
    match e.schemaIdx schema with
    | none => .error "schema does not exist"
    | some sp =>
      match e.schemas.get? sp with
      | none => .error "schema does not exist"
      | some (_, s) =>
        let r := NewRelation schema rel attrs pk
        match s.relIdx rel with
        | some rp =>
          match s.relations.get? rp with
          | none => .error "relation does not exist"
          | some (rnm, old) =>
            .ok (e.modifySchema sp
                   (fun s => { s with relations := s.relations.set rp (rel, r) }),
                 .uSetRelation sp rp rnm old)
        | none =>
          .ok (e.modifySchema sp
                 (fun s => { s with relations := s.relations ++ [(rel, r)] }),
               .uDropLastRelation sp)
  | .dropRelation schema rel =>
    match e.schemaIdx schema with
    | none => .error "schema does not exist"
    | some sp =>
      match e.schemas.get? sp with
      | none => .error "schema does not exist"
      | some (_, s) =>
        match s.relIdx rel with
        | none => .error "relation does not exist"
        | some rp =>
          match s.relations.get? rp with
          | none => .error "relation does not exist"
          | some (rnm, r) =>
            .ok (e.modifySchema sp
                   (fun s => { s with relations := s.relations.eraseIdx rp }),
                 .uReinsertRelation sp rp rnm r)
  | .insertRow schema rel t =>
    e.atRelation schema rel (fun r => .ok (r.insertRow t, ()))
      (fun sp rp _ => .uUndoInsert sp rp t)
  | .deleteRow schema rel id =>
    e.atRelation schema rel (fun r => r.deleteRowById id)
      (fun sp rp a => .uUndoDelete sp rp a.1 id a.2.1 a.2.2)
  | .updateRow schema rel id vals =>
    e.atRelation schema rel (fun r => r.updateRowById id vals)
      (fun sp rp a => .uUndoUpdate sp rp a.1 id a.2.1 a.2.2)

/-- Modelled from the spec: apply one change-log record (an inverse
operation); this is a total function — undo never fails (§7 "`rollback`
never fails"). -/
def applyUndo (e : Engine) : UndoRec → Engine
  | .uDropLastSchema => { e with schemas := e.schemas.dropLast }
  | .uReinsertSchema pos nm s =>
    { e with schemas := e.schemas.insertIdx pos (nm, s) }
  | .uDropLastRelation sp =>
    e.modifySchema sp (fun s => { s with relations := s.relations.dropLast })
  | .uSetRelation sp rp nm r =>
    e.modifySchema sp (fun s => { s with relations := s.relations.set rp (nm, r) })
  | .uReinsertRelation sp rp nm r =>
    e.modifySchema sp (fun s => { s with relations := s.relations.insertIdx rp (nm, r) })
  | .uUndoInsert sp rp t =>
    e.modifySchema sp (fun s => s.modifyRel rp (fun r => r.undoInsert t))
  | .uUndoDelete sp rp rowPos id t info =>
    e.modifySchema sp (fun s => s.modifyRel rp (fun r => r.undoDelete rowPos id t info))
  | .uUndoUpdate sp rp rowPos id oldVals info =>
    e.modifySchema sp (fun s => s.modifyRel rp (fun r => r.undoUpdate rowPos id oldVals info))

/-- Modelled from the spec: execute the statements of a transaction,
collecting the change log in order; a failing statement leaves the state
unchanged and logs nothing (§7). -/
def execMutations (e : Engine) : List Mutation → Engine × List UndoRec
  | [] => (e, [])
  | m :: ms =>
    match applyMutation e m with
    | .ok (e', u) =>
      let r := execMutations e' ms
      (r.1, u :: r.2)
    | .error _ => execMutations e ms

/-- `Tx.Rollback` (`executor/tx.go` delegates to the kernel transaction):
modelled from the spec — apply the change log's inverse operations in
reverse order.  Total: rollback never fails. -/
def Rollback (e : Engine) (log : List UndoRec) : Engine :=
  log.reverse.foldl applyUndo e

/-! ### Well-formedness invariant for the kernel state -/

/-- Every index entry keeps at least one handle (entries that empty are
dropped eagerly). -/
def EntriesNonempty (ix : HashIndex) : Prop :=
  ∀ e ∈ ix.entries, e.handles ≠ []

/-- Each live row's handle is recorded in its key's entry of every index
(§5 "Index invariants are maintained eagerly …, so no external observer
ever sees an index inconsistent with its relation"). -/
def IndexHasRow (ix : HashIndex) (id : Nat) (t : Tuple) : Prop :=
  entriesHasHandle (ix.keyOf t) id ix.entries = true

/-- Kernel well-formedness of a relation: distinct live row ids, ids below
the id counter, non-empty index entries, and index completeness. -/
def RelWF (r : Relation) : Prop :=
  (r.rows.map Prod.fst).Nodup ∧
  (∀ p ∈ r.rows, p.1 < r.nextId) ∧
  ∀ ix ∈ r.indexes, EntriesNonempty ix ∧ ∀ p ∈ r.rows, IndexHasRow ix p.1 p.2

/-- Kernel well-formedness of the whole engine state. -/
def EngineWF (e : Engine) : Prop :=
  ∀ q ∈ e.schemas, ∀ p ∈ q.2.relations, RelWF p.2

/-! ### Concrete test states (mirroring the end-to-end scenarios) -/

/-- The composed foreign-key column values of a child tuple (the `vals` of
`checkFkExistence`). -/
def composedFkVals (child : Relation) (fk : ForeignKey) (t : Tuple) : List SqlValue :=
  fk.localColumns.map
    (fun c => t.values.getD ((attrIndexOf child.attributes c).getD 0) SqlValue.null)

/-- `items(id TEXT PRIMARY KEY)` populated with `id1..id10` (scenario 1). -/
def itemsRel : Relation :=
  (NewRelation "public" "items" [NewAttribute "id" "text"] ["id"]).applyInserts
    ((List.range 10).map (fun i => ⟨[SqlValue.text ("id" ++ toString (i + 1))]⟩))

/-- The composite FK of `controls` referencing `categories(name,
catalog_id)` (scenarios 2 and 3). -/
def controlsFk : ForeignKey :=
  ((((NewForeignKey "").WithLocalColumn "category_name").WithLocalColumn
      "category_catalog_id").WithRefRelation "categories"
    |>.WithRefColumn "name").WithRefColumn "catalog_id"

/-- Attributes of `controls`; the table-level FK is attached to each local
attribute (§4.5 "FK definitions are attached to each local attribute"). -/
def controlsAttrs : List Attribute :=
  [NewAttribute "id" "text",
   (NewAttribute "category_name" "text").WithForeignKeyStruct controlsFk,
   (NewAttribute "category_catalog_id" "text").WithForeignKeyStruct controlsFk]

/-- Attributes of `categories`. -/
def categoriesAttrs : List Attribute :=
  [NewAttribute "name" "text", NewAttribute "catalog_id" "text"]

/-- `categories` with the two parent rows of scenario 3. -/
def categoriesRel2 : Relation :=
  (NewRelation "public" "categories" categoriesAttrs ["name", "catalog_id"]).applyInserts
    [⟨[SqlValue.text "cat", SqlValue.text "catalog1"]⟩,
     ⟨[SqlValue.text "cat", SqlValue.text "catalog2"]⟩]

/-- `controls` with one child row referencing `('cat','catalog1')`
(scenario 3). -/
def controlsRel1 : Relation :=
  (NewRelation "public" "controls" controlsAttrs ["id"]).applyInserts
    [⟨[SqlValue.text "c1", SqlValue.text "cat", SqlValue.text "catalog1"]⟩]

/-- `categories` with the single parent row of scenario 2. -/
def categoriesRel3 : Relation :=
  (NewRelation "public" "categories" categoriesAttrs ["name", "catalog_id"]).applyInserts
    [⟨[SqlValue.text "category-1", SqlValue.text "catalog-1"]⟩]

/-- An empty `controls` relation (scenario 2 inserts into it). -/
def controlsRel0 : Relation :=
  NewRelation "public" "controls" controlsAttrs ["id"]

/-- `users(id PRIMARY KEY, email UNIQUE)` with one stored row, for the
`CheckPrimaryKey` analysis. -/
def usersRel : Relation :=
  (NewRelation "public" "users"
      [NewAttribute "id" "int", (NewAttribute "email" "text").WithUnique]
      ["id"]).applyInserts
    [⟨[SqlValue.int 1, SqlValue.text "a"]⟩]

/-- A candidate tuple conflicting with the stored row on the unique
`email` column but not on the primary key. -/
def usersCand : Tuple := ⟨[SqlValue.int 2, SqlValue.text "a"]⟩

/-- An engine holding a non-empty schema `foo` (it contains `products`). -/
def engFoo : Engine :=
  { schemas :=
      [("public", NewSchema "public"),
       ("foo", (NewSchema "foo").Add "products"
          (NewRelation "foo" "products"
            [NewAttribute "id" "bigserial", NewAttribute "name" "text"] ["id"]))],
    searchPath := ["public"] }

/-- The AST node for `IS NULL` as built by the `WHERE` grammar
(`where.go` adds the `NullToken` child under the `IsToken` node). -/
def isNullDecl : Decl :=
  .mk .other "is" [.mk .NullToken "null" []]

/-- The AST node for `IS NOT NULL` (`NotToken` then `NullToken` children,
`where.go`). -/
def isNotNullDecl : Decl :=
  .mk .other "is" [.mk .NotToken "not" [], .mk .NullToken "null" []]

/-- A transaction's worth of statements exercising every mutation kind,
for the rollback scenario. -/
def demoMutations : List Mutation :=
  [Mutation.createSchema "foo",
   Mutation.createRelation "foo" "products"
     [NewAttribute "id" "int", NewAttribute "name" "text"] ["id"],
   Mutation.insertRow "foo" "products" ⟨[SqlValue.int 1, SqlValue.text "Widget"]⟩,
   Mutation.insertRow "foo" "products" ⟨[SqlValue.int 2, SqlValue.text "Gadget"]⟩,
   Mutation.updateRow "foo" "products" 0 [SqlValue.int 1, SqlValue.text "Sprocket"],
   Mutation.deleteRow "foo" "products" 1,
   Mutation.dropRelation "foo" "products",
   Mutation.dropSchema "foo"]

/-- Correspondence of a hash index with the row list (§8 "for every hash
index I on R, the set of row handles reachable through I equals the set of
rows in R satisfying the indexed predicate", stated at key granularity): a
key is present exactly when some stored row projects to it. -/
def IndexRowsIff (ix : HashIndex) (rows : List (Nat × Tuple)) : Prop :=
  ∀ key, (ix.Get key).isSome = true ↔ ∃ p ∈ rows, ix.keyOf p.2 = key

/-- Decidability of the entries invariant. -/
instance (ix : HashIndex) : Decidable (EntriesNonempty ix) := by
  unfold EntriesNonempty; infer_instance

/-- Decidability of relation well-formedness. -/
instance (r : Relation) : Decidable (RelWF r) := by
  unfold RelWF IndexHasRow; infer_instance

/-- Decidability of engine well-formedness. -/
instance (e : Engine) : Decidable (EngineWF e) := by
  unfold EngineWF; infer_instance

/-! ## Lemmas -/

theorem listSet_self {α : Type _} : ∀ (l : List α) (i : Nat) (a : α),
    l.get? i = some a → l.set i a = l
  | [], _, _, h => by cases h
  | x :: xs, 0, a, h => by
    simp only [List.get?] at h
    cases h
    rfl
  | x :: xs, i + 1, a, h => by
    simp only [List.get?] at h
    simp [List.set, listSet_self xs i a h]

theorem insertIdx_eraseIdx_self {α : Type _} : ∀ (l : List α) (i : Nat) (a : α),
    l.get? i = some a → (l.eraseIdx i).insertIdx i a = l
  | [], _, _, h => by cases h
  | x :: xs, 0, a, h => by
    simp only [List.get?] at h
    cases h
    rfl
  | x :: xs, i + 1, a, h => by
    simp only [List.get?] at h
    simp only [List.eraseIdx, List.insertIdx_succ_cons]
    rw [insertIdx_eraseIdx_self xs i a h]

theorem insertIdx_indexOf_erase : ∀ (l : List Nat) (a : Nat), a ∈ l →
    (l.erase a).insertIdx (l.indexOf a) a = l
  | [], a, h => by cases h
  | x :: xs, a, h => by
    by_cases hx : x = a
    · subst hx
      simp [List.erase_cons, List.indexOf_cons, List.insertIdx]
    · have hmem : a ∈ xs := by
        cases List.mem_cons.mp h with
        | inl h' => exact absurd h'.symm hx
        | inr h' => exact h'
      have hbeq : (x == a) = false := beq_false_of_ne hx
      simp only [List.erase_cons, List.indexOf_cons, hbeq, if_false, cond_false,
        Bool.false_eq_true, List.insertIdx_succ_cons]
      rw [insertIdx_indexOf_erase xs a hmem]

theorem findIdx?_get? {α : Type _} {p : α → Bool} {l : List α} {i : Nat}
    (h : l.findIdx? p = some i) : ∃ a, l.get? i = some a ∧ p a = true := by
  rcases List.findIdx?_eq_some_iff_findIdx_eq.mp h with ⟨hlt, hidx⟩
  refine ⟨l.get ⟨i, hlt⟩, ?_, ?_⟩
  · simp [List.get?_eq_get hlt]
  · subst hidx
    simpa using List.findIdx_getElem (w := hlt)

theorem foldl_preserve {α β : Type _} {P : α → Prop} (f : α → β → α)
    (hf : ∀ a b, P a → P (f a b)) : ∀ (l : List β) (a : α), P a → P (l.foldl f a)
  | [], _, h => h
  | b :: bs, a, h => foldl_preserve f hf bs (f a b) (hf a b h)

/-! ### Index names -/

theorem hasPkNamePre_pk (s : String) : hasPkNamePre ("pk_" ++ s) = true := by
  simp [hasPkNamePre, String.data_append]

theorem hasPkNamePre_unique (s : String) : hasPkNamePre ("unique_" ++ s) = false := by
  simp [hasPkNamePre, String.data_append]

theorem hasPkNamePre_fk (s : String) : hasPkNamePre ("fk_" ++ s) = false := by
  simp [hasPkNamePre, String.data_append]

theorem hasUniqueNamePre_unique (s : String) :
    hasUniqueNamePre ("unique_" ++ s) = true := by
  simp [hasUniqueNamePre, String.data_append]

/-! ### `hasIndexOn` and `ensureHashIndex` -/

theorem hashIndexMatches_self : ∀ (a : List String), hashIndexMatches a a = true
  | [] => by simp [hashIndexMatches]
  | x :: xs => by
    have ih := hashIndexMatches_self xs
    rw [hashIndexMatches, Bool.and_eq_true] at ih ⊢
    refine ⟨by simp, ?_⟩
    rw [List.zip_cons_cons, List.all_cons, Bool.and_eq_true]
    exact ⟨by simp, ih.2⟩

theorem hashIndexMatches_iff : ∀ (a b : List String), hashIndexMatches a b = true ↔ a = b
  | [], [] => by simp [hashIndexMatches]
  | [], _ :: _ => by simp [hashIndexMatches]
  | _ :: _, [] => by simp [hashIndexMatches]
  | x :: xs, y :: ys => by
    constructor
    · intro h
      rw [hashIndexMatches, Bool.and_eq_true] at h
      obtain ⟨hlen, hall⟩ := h
      rw [List.zip_cons_cons, List.all_cons, Bool.and_eq_true] at hall
      obtain ⟨hxy, hall'⟩ := hall
      simp only [List.length_cons, beq_iff_eq, Nat.add_right_cancel_iff] at hlen
      have hxs : xs = ys := by
        rw [← hashIndexMatches_iff xs ys, hashIndexMatches, Bool.and_eq_true]
        exact ⟨by simpa using hlen, hall'⟩
      simp only [beq_iff_eq] at hxy
      simp [hxy, hxs]
    · intro h
      rw [h]
      exact hashIndexMatches_self _

theorem hasIndexOn_false {r : Relation} {attrs : List String}
    (h : r.hasIndexOn attrs = false) :
    ∀ ix ∈ r.indexes, ix.attrsName ≠ attrs := by
  intro ix hmem heq
  rw [Relation.hasIndexOn] at h
  have h1 : hashIndexMatches ix.attrsName attrs = true := (hashIndexMatches_iff _ _).mpr heq
  have h2 : r.indexes.any (fun ix => hashIndexMatches ix.attrsName attrs) = true :=
    List.any_eq_true.mpr ⟨ix, hmem, h1⟩
  rw [h] at h2
  cases h2

theorem mapM_option_getD {α β : Type _} (f : α → Option β) (d : β) :
    ∀ {l : List α} {l' : List β}, l.mapM f = some l' →
      l' = l.map (fun a => (f a).getD d) := by
  intro l
  induction l with
  | nil =>
    intro l' h
    simp only [List.mapM_nil, pure, Option.some.injEq] at h
    simp [← h]
  | cons a as ih =>
    intro l' h
    rw [List.mapM_cons] at h
    cases hfa : f a with
    | none => rw [hfa] at h; simp at h
    | some b =>
      rw [hfa] at h
      cases hrest : as.mapM f with
      | none => rw [hrest] at h; simp at h
      | some bs =>
        rw [hrest] at h
        simp only [Option.bind_some, Option.pure_def, Option.bind_eq_bind,
          Option.some_bind, Option.some.injEq] at h
        subst h
        simp [hfa, ih hrest]

/-- `ensureHashIndex` either leaves the relation unchanged, or (when no
index on `attrs` exists yet) appends exactly one fresh index: no entries,
on exactly `attrs`, named with the kind's naming convention, and with the
attribute positions of `attrIndexOf`.  All other fields are untouched. -/
theorem ensureHashIndex_cases (r : Relation) (pre : String) (attrs : List String) :
    r.ensureHashIndex pre attrs = r ∨
    (r.hasIndexOn attrs = false ∧ attrs ≠ [] ∧ ∃ ix0,
      r.ensureHashIndex pre attrs = { r with indexes := r.indexes ++ [ix0] } ∧
      ix0.entries = [] ∧ ix0.attrsName = attrs ∧
      (∃ rest, ix0.name = pre ++ rest) ∧
      ix0.attrsIdx = attrs.map (fun a => (attrIndexOf r.attributes a).getD 0)) := by
  unfold Relation.ensureHashIndex
  split
  · exact Or.inl rfl
  split
  · exact Or.inl rfl
  · rename_i hne hno
    split
    · exact Or.inl rfl
    · rename_i hmapM
      refine Or.inr ⟨by simpa using hno, by simpa using hne, _, rfl, rfl, rfl,
        ⟨r.schema ++ "_" ++ r.name ++ "_" ++ String.intercalate "_" attrs,
          by simp [NewHashIndex, String.append_assoc]⟩, ?_⟩
      simpa [NewHashIndex] using mapM_option_getD _ 0 hmapM

/-- `ensureHashIndex` preserves pairwise distinctness of the indexes'
attribute lists (the dedup check). -/
theorem ensureHashIndex_pairwise {r : Relation} (pre : String) (attrs : List String)
    (h : r.indexes.Pairwise (fun i j => i.attrsName ≠ j.attrsName)) :
    (r.ensureHashIndex pre attrs).indexes.Pairwise
      (fun i j => i.attrsName ≠ j.attrsName) := by
  rcases ensureHashIndex_cases r pre attrs with heq | ⟨hno, _, ix0, heq, _, hattrs, _, _⟩
  · rw [heq]; exact h
  · rw [heq]
    simp only
    rw [List.pairwise_append]
    refine ⟨h, by simp, ?_⟩
    intro a ha b hb
    simp only [List.mem_singleton] at hb
    subst hb
    rw [hattrs]
    exact hasIndexOn_false hno a ha

/-- Core of claim C9: relations built by `NewRelation` never hold two hash
indexes on the same ordered attribute-name list. -/
theorem newRelation_indexes_pairwise (schema name : String)
    (attrs : List Attribute) (pk : List String) :
    (NewRelation schema name attrs pk).indexes.Pairwise
      (fun i j => i.attrsName ≠ j.attrsName) := by
  simp only [NewRelation]
  have hfk : ∀ (r : Relation) (fk : ForeignKey),
      r.indexes.Pairwise (fun i j => i.attrsName ≠ j.attrsName) →
      ((if fk.localColumns.isEmpty then r
        else r.ensureHashIndex "fk_" fk.localColumns)).indexes.Pairwise
        (fun i j => i.attrsName ≠ j.attrsName) := by
    intro r fk h
    split
    · exact h
    · exact ensureHashIndex_pairwise _ _ h
  have huniq : ∀ (r : Relation) (a : Attribute),
      r.indexes.Pairwise (fun i j => i.attrsName ≠ j.attrsName) →
      ((if a.unique then r.ensureHashIndex "unique_" [a.name]
        else r)).indexes.Pairwise (fun i j => i.attrsName ≠ j.attrsName) := by
    intro r a h
    split
    · exact ensureHashIndex_pairwise _ _ h
    · exact h
  refine foldl_preserve _ hfk _ _ (foldl_preserve _ huniq _ _ ?_)
  split
  · exact List.Pairwise.nil
  · exact ensureHashIndex_pairwise _ _ List.Pairwise.nil

/-! ### Entry-level index lemmas -/

theorem entriesUnAdd_entriesAdd (key : List SqlValue) (h : Nat) :
    ∀ (es : List IndexEntry), (∀ e ∈ es, e.handles ≠ []) →
      entriesUnAdd key (entriesAdd key h es) = es
  | [], _ => by simp [entriesAdd, entriesUnAdd]
  | e :: es, hne => by
    by_cases hbe : (e.key == key) = true
    · simp only [entriesAdd, hbe, if_true, entriesUnAdd, List.dropLast_concat]
      have : e.handles.isEmpty = false := by
        have := hne e (List.mem_cons_self e es)
        cases hh : e.handles with
        | nil => exact absurd hh this
        | cons a as => simp [List.isEmpty]
      rw [this]
      simp
    · simp only [entriesAdd, hbe, if_false, entriesUnAdd, Bool.false_eq_true]
      rw [entriesUnAdd_entriesAdd key h es (fun e he => hne e (List.mem_cons_of_mem _ he))]

theorem entriesAdd_nonempty (key : List SqlValue) (h : Nat) :
    ∀ (es : List IndexEntry), (∀ e ∈ es, e.handles ≠ []) →
      ∀ e ∈ entriesAdd key h es, e.handles ≠ []
  | [], _ => by
    simp only [entriesAdd, List.mem_singleton]
    rintro e rfl
    simp
  | e :: es, hne => by
    by_cases hbe : (e.key == key) = true
    · simp only [entriesAdd, hbe, if_true]
      intro f hf
      rcases List.mem_cons.mp hf with hf | hf
      · subst hf; simp
      · exact hne f (List.mem_cons_of_mem _ hf)
    · simp only [entriesAdd, hbe, if_false, Bool.false_eq_true]
      intro f hf
      rcases List.mem_cons.mp hf with hf | hf
      · subst hf; exact hne f (List.mem_cons_self _ _)
      · exact entriesAdd_nonempty key h es
          (fun g hg => hne g (List.mem_cons_of_mem _ hg)) f hf

theorem entriesHasHandle_entriesAdd_self (key : List SqlValue) (h : Nat) :
    ∀ (es : List IndexEntry), entriesHasHandle key h (entriesAdd key h es) = true
  | [] => by simp [entriesAdd, entriesHasHandle]
  | e :: es => by
    by_cases hbe : (e.key == key) = true
    · simp [entriesAdd, hbe, entriesHasHandle]
    · simp only [entriesAdd, hbe, if_false, entriesHasHandle, Bool.false_eq_true]
      exact entriesHasHandle_entriesAdd_self key h es

theorem entriesHasHandle_entriesAdd_of (key : List SqlValue) (h : Nat)
    (key' : List SqlValue) (h' : Nat) :
    ∀ (es : List IndexEntry), entriesHasHandle key' h' es = true →
      entriesHasHandle key' h' (entriesAdd key h es) = true
  | [], hhas => by cases hhas
  | e :: es, hhas => by
    by_cases hbe : (e.key == key) = true
    · by_cases hbe' : (e.key == key') = true
      · simp only [entriesHasHandle, hbe', if_true] at hhas
        simp only [entriesAdd, hbe, if_true, entriesHasHandle, hbe', if_true]
        simp only [List.contains, List.elem_iff] at hhas ⊢
        exact List.mem_append_left _ hhas
      · simp only [entriesHasHandle, hbe', if_false, Bool.false_eq_true] at hhas
        simp only [entriesAdd, hbe, if_true, entriesHasHandle, hbe', if_false,
          Bool.false_eq_true]
        exact hhas
    · by_cases hbe' : (e.key == key') = true
      · simp only [entriesHasHandle, hbe'] at hhas
        simp only [entriesAdd, hbe, if_false, entriesHasHandle, hbe', if_true,
          Bool.false_eq_true]
        exact hhas
      · simp only [entriesHasHandle, hbe', if_false, Bool.false_eq_true] at hhas
        simp only [entriesAdd, hbe, if_false, entriesHasHandle, hbe', if_false,
          Bool.false_eq_true]
        exact entriesHasHandle_entriesAdd_of key h key' h' es hhas

theorem eq_singleton_of_erase_nil {l : List Nat} {h : Nat}
    (hmem : h ∈ l) (herase : l.erase h = []) : l = [h] := by
  cases l with
  | nil => cases hmem
  | cons a as =>
    by_cases ha : a = h
    · subst ha
      rw [List.erase_cons_head] at herase
      rw [herase]
    · rw [List.erase_cons_tail (by simpa using ha)] at herase
      cases herase

theorem entriesRemove_isSome (key : List SqlValue) (h : Nat) :
    ∀ (es : List IndexEntry), entriesHasHandle key h es = true →
      (entriesRemoveInfo key h es).2.isSome = true
  | [], hhas => by cases hhas
  | e :: es, hhas => by
    by_cases hbe : (e.key == key) = true
    · simp only [entriesRemoveInfo, hbe, if_true]
      split <;> simp
    · simp only [entriesHasHandle, hbe, if_false, Bool.false_eq_true] at hhas
      simp only [entriesRemoveInfo, hbe, if_false, Bool.false_eq_true]
      have := entriesRemove_isSome key h es hhas
      cases hsnd : (entriesRemoveInfo key h es).2 with
      | none => rw [hsnd] at this; cases this
      | some q => simp [hsnd]

theorem entriesRestore_entriesRemove (key : List SqlValue) (h : Nat) :
    ∀ (es : List IndexEntry), entriesHasHandle key h es = true →
      entriesRestoreInfo key h (entriesRemoveInfo key h es).2
        (entriesRemoveInfo key h es).1 = es
  | [], hhas => by cases hhas
  | e :: es, hhas => by
    by_cases hbe : (e.key == key) = true
    · simp only [entriesHasHandle, hbe, if_true, List.contains, List.elem_iff] at hhas
      have hkey : e.key = key := by simpa using hbe
      simp only [entriesRemoveInfo, hbe, if_true]
      by_cases hemp : (e.handles.erase h).isEmpty = true
      · simp only [hemp, if_true, entriesRestoreInfo]
        have : e.handles = [h] :=
          eq_singleton_of_erase_nil hhas (by simpa [List.isEmpty_iff] using hemp)
        have : e = ⟨key, [h]⟩ := by
          cases e
          simp_all
        rw [← this]
      · simp only [hemp, if_false, Bool.false_eq_true, entriesRestoreInfo]
        rw [insertIdx_indexOf_erase _ _ hhas]
    · simp only [entriesHasHandle, hbe, if_false, Bool.false_eq_true] at hhas
      simp only [entriesRemoveInfo, hbe, if_false, Bool.false_eq_true]
      have hsome := entriesRemove_isSome key h es hhas
      cases hsnd : (entriesRemoveInfo key h es).2 with
      | none => rw [hsnd] at hsome; cases hsome
      | some q =>
        simp only [Option.map_some']
        cases q with
        | mk ep i =>
          simp only [entriesRestoreInfo]
          have ih := entriesRestore_entriesRemove key h es hhas
          rw [hsnd] at ih
          rw [ih]

theorem entriesRemove_nonempty (key : List SqlValue) (h : Nat) :
    ∀ (es : List IndexEntry), (∀ e ∈ es, e.handles ≠ []) →
      ∀ e ∈ (entriesRemoveInfo key h es).1, e.handles ≠ []
  | [], _ => by simp [entriesRemoveInfo]
  | e :: es, hne => by
    by_cases hbe : (e.key == key) = true
    · simp only [entriesRemoveInfo, hbe, if_true]
      by_cases hemp : (e.handles.erase h).isEmpty = true
      · simp only [hemp, if_true]
        exact fun f hf => hne f (List.mem_cons_of_mem _ hf)
      · simp only [hemp, if_false, Bool.false_eq_true]
        intro f hf
        rcases List.mem_cons.mp hf with hf | hf
        · subst hf
          simpa [List.isEmpty_iff] using hemp
        · exact hne f (List.mem_cons_of_mem _ hf)
    · simp only [entriesRemoveInfo, hbe, if_false, Bool.false_eq_true]
      intro f hf
      rcases List.mem_cons.mp hf with hf | hf
      · subst hf; exact hne f (List.mem_cons_self _ _)
      · exact entriesRemove_nonempty key h es
          (fun g hg => hne g (List.mem_cons_of_mem _ hg)) f hf

theorem entriesHasHandle_entriesRemove (key : List SqlValue) (h : Nat)
    (key' : List SqlValue) (h' : Nat) (hne : h' ≠ h) :
    ∀ (es : List IndexEntry), entriesHasHandle key' h' es = true →
      entriesHasHandle key' h' (entriesRemoveInfo key h es).1 = true
  | [], hhas => by cases hhas
  | e :: es, hhas => by
    by_cases hbe : (e.key == key) = true
    · by_cases hbe' : (e.key == key') = true
      · simp only [entriesHasHandle, hbe', if_true, List.contains, List.elem_iff] at hhas
        simp only [entriesRemoveInfo, hbe, if_true]
        by_cases hemp : (e.handles.erase h).isEmpty = true
        · exfalso
          have h1 : e.handles = [h] :=
            eq_singleton_of_erase_nil
              (by
                have : h' ∈ e.handles.erase h := by
                  rw [List.mem_erase_of_ne hne]; exact hhas
                rw [List.isEmpty_iff.mp hemp] at this
                cases this)
              (by simpa [List.isEmpty_iff] using hemp)
          rw [h1] at hhas
          simp at hhas
          exact hne hhas
        · simp only [hemp, if_false, Bool.false_eq_true, entriesHasHandle, hbe', if_true,
            List.contains, List.elem_iff]
          rw [List.mem_erase_of_ne hne]
          exact hhas
      · simp only [entriesHasHandle, hbe', if_false, Bool.false_eq_true] at hhas
        simp only [entriesRemoveInfo, hbe, if_true]
        by_cases hemp : (e.handles.erase h).isEmpty = true
        · simp only [hemp, if_true]
          exact hhas
        · simp only [hemp, if_false, Bool.false_eq_true, entriesHasHandle, hbe', if_false]
          exact hhas
    · simp only [entriesRemoveInfo, hbe, if_false, Bool.false_eq_true]
      by_cases hbe' : (e.key == key') = true
      · simp only [entriesHasHandle, hbe', if_true] at hhas ⊢
        exact hhas
      · simp only [entriesHasHandle, hbe', if_false, Bool.false_eq_true] at hhas ⊢
        exact entriesHasHandle_entriesRemove key h key' h' hne es hhas

/-! ### Relation-level mutation lemmas -/

theorem mem_eraseIdx_nodup {α β : Type _} (f : α → β) :
    ∀ (l : List α) (i : Nat) (a b : α), l.get? i = some a → (l.map f).Nodup →
      b ∈ l.eraseIdx i → b ∈ l ∧ f b ≠ f a
  | [], _, _, _, h, _, _ => by cases h
  | x :: xs, 0, a, b, h, hnd, hb => by
    simp only [List.get?] at h
    cases h
    simp only [List.eraseIdx] at hb
    simp only [List.map_cons, List.nodup_cons] at hnd
    exact ⟨List.mem_cons_of_mem _ hb, fun hfb => hnd.1 (hfb ▸ List.mem_map_of_mem f hb)⟩
  | x :: xs, i + 1, a, b, h, hnd, hb => by
    simp only [List.get?] at h
    simp only [List.eraseIdx] at hb
    simp only [List.map_cons, List.nodup_cons] at hnd
    rcases List.mem_cons.mp hb with hb | hb
    · subst hb
      refine ⟨List.mem_cons_self _ _, fun hfb => hnd.1 ?_⟩
      have ha : a ∈ xs := by
        have := List.get?_mem h
        exact this
      exact hfb ▸ List.mem_map_of_mem f ha
    · have := mem_eraseIdx_nodup f xs i a b h hnd.2 hb
      exact ⟨List.mem_cons_of_mem _ this.1, this.2⟩

theorem mem_set_nodup {α β : Type _} (f : α → β) :
    ∀ (l : List α) (i : Nat) (a c b : α), l.get? i = some a → (l.map f).Nodup →
      b ∈ l.set i c → b = c ∨ (b ∈ l ∧ f b ≠ f a)
  | [], _, _, _, _, h, _, _ => by cases h
  | x :: xs, 0, a, c, b, h, hnd, hb => by
    simp only [List.get?] at h
    cases h
    simp only [List.set] at hb
    simp only [List.map_cons, List.nodup_cons] at hnd
    rcases List.mem_cons.mp hb with hb | hb
    · exact Or.inl hb
    · exact Or.inr ⟨List.mem_cons_of_mem _ hb,
        fun hfb => hnd.1 (hfb ▸ List.mem_map_of_mem f hb)⟩
  | x :: xs, i + 1, a, c, b, h, hnd, hb => by
    simp only [List.get?] at h
    simp only [List.set] at hb
    simp only [List.map_cons, List.nodup_cons] at hnd
    rcases List.mem_cons.mp hb with hb | hb
    · subst hb
      refine Or.inr ⟨List.mem_cons_self _ _, fun hfb => hnd.1 ?_⟩
      exact hfb ▸ List.mem_map_of_mem f (List.get?_mem h)
    · rcases mem_set_nodup f xs i a c b h hnd.2 hb with hc | ⟨hm, hne⟩
      · exact Or.inl hc
      · exact Or.inr ⟨List.mem_cons_of_mem _ hm, hne⟩

/-- Rolling an insert back restores the relation exactly (the handle the
insert appended is the one the undo drops). -/
theorem undoInsert_insertRow (r : Relation) (t : Tuple)
    (hne : ∀ ix ∈ r.indexes, EntriesNonempty ix) :
    (r.insertRow t).undoInsert t = r := by
  cases r with
  | mk nm sc ats pk rows nid ixs =>
    simp only [Relation.insertRow, Relation.undoInsert, HashIndex.Add]
    simp only [List.dropLast_concat, Nat.add_sub_cancel, List.map_map]
    congr 1
    have hstep : ∀ ix ∈ ixs,
        ((fun ix => { ix with entries := entriesUnAdd (ix.keyOf t) ix.entries }) ∘
          (fun ix => { ix with entries := entriesAdd (ix.keyOf t) nid ix.entries })) ix
        = id ix := by
      intro ix hix
      show ({ ix with entries :=
        (entriesUnAdd (ix.keyOf t) (entriesAdd (ix.keyOf t) nid ix.entries)) } : HashIndex) = ix
      rw [entriesUnAdd_entriesAdd _ _ _ (hne ix hix)]
    rw [List.map_congr_left hstep, List.map_id]

/-- `insertRow` preserves kernel well-formedness. -/
theorem insertRow_wf {r : Relation} (t : Tuple) (hwf : RelWF r) :
    RelWF (r.insertRow t) := by
  obtain ⟨hnd, hlt, hix⟩ := hwf
  refine ⟨?_, ?_, ?_⟩
  · simp only [Relation.insertRow, List.map_append, List.map_cons, List.map_nil]
    rw [List.nodup_append]
    refine ⟨hnd, by simp, ?_⟩
    intro a ha hb
    simp only [List.mem_singleton] at hb
    subst hb
    rcases List.mem_map.mp ha with ⟨p, hp, hpa⟩
    exact absurd (hpa ▸ hlt p hp) (lt_irrefl _)
  · intro p hp
    simp only [Relation.insertRow] at hp ⊢
    rcases List.mem_append.mp hp with hp | hp
    · exact Nat.lt_succ_of_lt (hlt p hp)
    · simp only [List.mem_singleton] at hp
      subst hp
      exact Nat.lt_succ_self _
  · intro ix hixmem
    simp only [Relation.insertRow] at hixmem
    rcases List.mem_map.mp hixmem with ⟨ix0, hix0, hix0e⟩
    subst hix0e
    obtain ⟨hne0, hhr0⟩ := hix ix0 hix0
    constructor
    · intro e he
      exact entriesAdd_nonempty _ _ _ hne0 e he
    · intro p hp
      simp only [Relation.insertRow] at hp
      have hkey : (ix0.Add t r.nextId).keyOf = ix0.keyOf := rfl
      rcases List.mem_append.mp hp with hp | hp
      · unfold IndexHasRow
        rw [hkey]
        exact entriesHasHandle_entriesAdd_of _ _ _ _ _ (hhr0 p hp)
      · simp only [List.mem_singleton] at hp
        subst hp
        unfold IndexHasRow
        rw [hkey]
        exact entriesHasHandle_entriesAdd_self _ _ _

theorem zip_map_self {α β γ : Type _} (l : List α) (g : α → β) (f : α × β → γ) :
    (l.zip (l.map g)).map f = l.map (fun a => f (a, g a)) := by
  conv_lhs => rw [show l.zip (l.map g) = (l.map id).zip (l.map g) by rw [List.map_id]]
  rw [List.zip_map']
  rw [List.map_map]
  rfl

/-- Auxiliary: `zip` of two maps over the same list, then `map`. -/
theorem zip_map_map {α β γ δ : Type _} (l : List α) (f : α → β) (g : α → γ)
    (k : β × γ → δ) :
    ((l.map f).zip (l.map g)).map k = l.map (fun a => k (f a, g a)) := by
  rw [List.zip_map', List.map_map]
  rfl

/-- Rolling a delete back restores the relation exactly: the row returns
to its position and every index entry regains the handle where it was. -/
theorem undoDelete_deleteRowById {r : Relation} {id : Nat} {r' : Relation}
    {rowPos : Nat} {t : Tuple} {info : List (Option (Nat × Option Nat))}
    (hwf : RelWF r) (h : r.deleteRowById id = .ok (r', rowPos, t, info)) :
    r'.undoDelete rowPos id t info = r := by
  unfold Relation.deleteRowById at h
  cases hfi : r.rows.findIdx? (fun p => p.1 == id) with
  | none => rw [hfi] at h; cases h
  | some rp =>
    rw [hfi] at h
    dsimp only at h
    cases hget : r.rows.get? rp with
    | none => rw [hget] at h; cases h
    | some pr =>
      rw [hget] at h
      obtain ⟨rid, t0⟩ := pr
      dsimp only at h
      simp only [Except.ok.injEq, Prod.mk.injEq] at h
      obtain ⟨hr', hrp, ht, hinfo⟩ := h
      have hrid : rid = id := by
        rcases findIdx?_get? hfi with ⟨a, hga, hpa⟩
        rw [hget] at hga
        cases hga
        simpa using hpa
      subst hrid hrp ht hinfo
      subst hr'
      unfold Relation.undoDelete
      have hmem : (rid, t0) ∈ r.rows := List.get?_mem hget
      have hidx : ∀ ix ∈ r.indexes,
          (fun ix => ({ ix with entries :=
            (entriesRestoreInfo (ix.keyOf t0) rid
              (entriesRemoveInfo (ix.keyOf t0) rid ix.entries).2
              (entriesRemoveInfo (ix.keyOf t0) rid ix.entries).1) } : HashIndex)) ix
            = id ix := by
        intro ix hix
        show ({ ix with entries :=
          (entriesRestoreInfo (ix.keyOf t0) rid
            (entriesRemoveInfo (ix.keyOf t0) rid ix.entries).2
            (entriesRemoveInfo (ix.keyOf t0) rid ix.entries).1) } : HashIndex) = ix
        rw [entriesRestore_entriesRemove _ _ _ ((hwf.2.2 ix hix).2 (rid, t0) hmem)]
      have hrows : ((r.rows.eraseIdx rp).insertIdx rp (rid, t0)) = r.rows :=
        insertIdx_eraseIdx_self _ _ _ hget
      obtain ⟨nm, sc, ats, pk0, rows0, nid, ixs⟩ := r
      simp only at hrows hidx hmem ⊢
      rw [zip_map_self]
      rw [List.map_map, zip_map_map]
      rw [hrows]
      congr 1
      exact (List.map_congr_left hidx).trans (List.map_id _)

/-- `deleteRowById` preserves kernel well-formedness. -/
theorem deleteRowById_wf {r : Relation} {id : Nat} {r' : Relation}
    {rowPos : Nat} {t : Tuple} {info : List (Option (Nat × Option Nat))}
    (hwf : RelWF r) (h : r.deleteRowById id = .ok (r', rowPos, t, info)) :
    RelWF r' := by
  obtain ⟨hnd, hlt, hix⟩ := hwf
  unfold Relation.deleteRowById at h
  cases hfi : r.rows.findIdx? (fun p => p.1 == id) with
  | none => rw [hfi] at h; cases h
  | some rp =>
    rw [hfi] at h
    dsimp only at h
    cases hget : r.rows.get? rp with
    | none => rw [hget] at h; cases h
    | some pr =>
      rw [hget] at h
      obtain ⟨rid, t0⟩ := pr
      dsimp only at h
      simp only [Except.ok.injEq, Prod.mk.injEq] at h
      obtain ⟨hr', hrp, ht, hinfo⟩ := h
      have hrid : rid = id := by
        rcases findIdx?_get? hfi with ⟨a, hga, hpa⟩
        rw [hget] at hga
        cases hga
        simpa using hpa
      subst hrid hrp ht hinfo
      subst hr'
      refine ⟨?_, ?_, ?_⟩
      · exact ((List.eraseIdx_sublist _ _).map _).nodup hnd
      · exact fun p hp => hlt p (List.mem_of_mem_eraseIdx hp)
      · intro ix' hix'
        simp only at hix'
        rw [zip_map_self] at hix'
        rcases List.mem_map.mp hix' with ⟨ix0, hix0, hix0e⟩
        subst hix0e
        obtain ⟨hne0, hhr0⟩ := hix ix0 hix0
        refine ⟨fun e he => entriesRemove_nonempty _ _ _ hne0 e he, ?_⟩
        intro p hp
        simp only at hp
        have hmem := mem_eraseIdx_nodup Prod.fst r.rows rp (rid, t0) p hget hnd hp
        unfold IndexHasRow
        exact entriesHasHandle_entriesRemove _ _ _ _ hmem.2 _ (hhr0 p hmem.1)

/-- Rolling an update back restores the relation exactly: prior values
return to their slots and the index re-keying is inverted. -/
theorem undoUpdate_updateRowById {r : Relation} {id : Nat} {newVals : List SqlValue}
    {r' : Relation} {rowPos : Nat} {oldVals : List SqlValue}
    {info : List (Option (Nat × Option Nat))}
    (hwf : RelWF r) (h : r.updateRowById id newVals = .ok (r', rowPos, oldVals, info)) :
    r'.undoUpdate rowPos id oldVals info = r := by
  unfold Relation.updateRowById at h
  cases hfi : r.rows.findIdx? (fun p => p.1 == id) with
  | none => rw [hfi] at h; cases h
  | some rp =>
    rw [hfi] at h
    dsimp only at h
    cases hget : r.rows.get? rp with
    | none => rw [hget] at h; cases h
    | some pr =>
      rw [hget] at h
      obtain ⟨rid, t0⟩ := pr
      dsimp only at h
      simp only [Except.ok.injEq, Prod.mk.injEq] at h
      obtain ⟨hr', hrp, hov, hinfo⟩ := h
      have hrid : rid = id := by
        rcases findIdx?_get? hfi with ⟨a, hga, hpa⟩
        rw [hget] at hga
        cases hga
        simpa using hpa
      subst hrid hrp hov hinfo
      subst hr'
      have hlen : rp < r.rows.length := by
        have := hget
        rw [List.get?_eq_getElem?] at this
        exact (List.getElem?_eq_some.mp this).1
      have hgetNew : (r.rows.set rp (rid, ⟨newVals⟩)).get? rp
          = some (rid, (⟨newVals⟩ : Tuple)) := by
        rw [List.get?_eq_getElem?]
        exact List.getElem?_set_self (by simpa using hlen)
      unfold Relation.undoUpdate
      rw [hgetNew]
      have hmem : (rid, t0) ∈ r.rows := List.get?_mem hget
      have hidx : ∀ ix ∈ r.indexes,
          (fun ix => ({ ix with entries :=
            (entriesRestoreInfo (ix.keyOf t0) rid
              (entriesRemoveInfo (ix.keyOf t0) rid ix.entries).2
              (entriesUnAdd (ix.keyOf (⟨newVals⟩ : Tuple))
                (entriesAdd (ix.keyOf (⟨newVals⟩ : Tuple)) rid
                  (entriesRemoveInfo (ix.keyOf t0) rid ix.entries).1))) } : HashIndex)) ix
            = id ix := by
        intro ix hix
        show ({ ix with entries :=
          (entriesRestoreInfo (ix.keyOf t0) rid
            (entriesRemoveInfo (ix.keyOf t0) rid ix.entries).2
            (entriesUnAdd (ix.keyOf (⟨newVals⟩ : Tuple))
              (entriesAdd (ix.keyOf (⟨newVals⟩ : Tuple)) rid
                (entriesRemoveInfo (ix.keyOf t0) rid ix.entries).1))) } : HashIndex) = ix
        rw [entriesUnAdd_entriesAdd _ _ _
          (entriesRemove_nonempty _ _ _ (hwf.2.2 ix hix).1)]
        rw [entriesRestore_entriesRemove _ _ _ ((hwf.2.2 ix hix).2 (rid, t0) hmem)]
      have hrows : ((r.rows.set rp (rid, (⟨newVals⟩ : Tuple))).set rp (rid, t0)) = r.rows := by
        rw [List.set_set]
        exact listSet_self _ _ _ hget
      obtain ⟨nm, sc, ats, pk0, rows0, nid, ixs⟩ := r
      simp only at hrows hidx hmem ⊢
      rw [zip_map_self]
      rw [List.map_map, zip_map_map]
      rw [hrows]
      congr 1
      exact (List.map_congr_left hidx).trans (List.map_id _)

/-- `updateRowById` preserves kernel well-formedness. -/
theorem updateRowById_wf {r : Relation} {id : Nat} {newVals : List SqlValue}
    {r' : Relation} {rowPos : Nat} {oldVals : List SqlValue}
    {info : List (Option (Nat × Option Nat))}
    (hwf : RelWF r) (h : r.updateRowById id newVals = .ok (r', rowPos, oldVals, info)) :
    RelWF r' := by
  obtain ⟨hnd, hlt, hix⟩ := hwf
  unfold Relation.updateRowById at h
  cases hfi : r.rows.findIdx? (fun p => p.1 == id) with
  | none => rw [hfi] at h; cases h
  | some rp =>
    rw [hfi] at h
    dsimp only at h
    cases hget : r.rows.get? rp with
    | none => rw [hget] at h; cases h
    | some pr =>
      rw [hget] at h
      obtain ⟨rid, t0⟩ := pr
      dsimp only at h
      simp only [Except.ok.injEq, Prod.mk.injEq] at h
      obtain ⟨hr', hrp, hov, hinfo⟩ := h
      have hrid : rid = id := by
        rcases findIdx?_get? hfi with ⟨a, hga, hpa⟩
        rw [hget] at hga
        cases hga
        simpa using hpa
      subst hrid hrp hov hinfo
      subst hr'
      have hmapfst : (r.rows.set rp (rid, (⟨newVals⟩ : Tuple))).map Prod.fst
          = r.rows.map Prod.fst := by
        rw [List.map_set]
        apply listSet_self
        rw [List.get?_eq_getElem?, List.getElem?_map]
        rw [← List.get?_eq_getElem?, hget]
        rfl
      refine ⟨?_, ?_, ?_⟩
      · simp only
        rw [hmapfst]
        exact hnd
      · intro p hp
        simp only at hp ⊢
        rcases List.mem_or_eq_of_mem_set hp with hp | hp
        · exact hlt p hp
        · subst hp
          exact hlt (rid, t0) (List.get?_mem hget)
      · intro ix' hix'
        simp only at hix'
        rw [zip_map_self] at hix'
        rcases List.mem_map.mp hix' with ⟨ix0, hix0, hix0e⟩
        subst hix0e
        obtain ⟨hne0, hhr0⟩ := hix ix0 hix0
        constructor
        · intro e he
          exact entriesAdd_nonempty _ _ _
            (entriesRemove_nonempty _ _ _ hne0) e he
        · intro p hp
          simp only at hp
          rcases mem_set_nodup Prod.fst r.rows rp (rid, t0) (rid, ⟨newVals⟩) p
              hget hnd hp with hp | ⟨hm, hne⟩
          · subst hp
            unfold IndexHasRow
            exact entriesHasHandle_entriesAdd_self _ _ _
          · unfold IndexHasRow
            exact entriesHasHandle_entriesAdd_of _ _ _ _ _
              (entriesHasHandle_entriesRemove _ _ _ _ hne _ (hhr0 p hm))

/-! ### Engine-level mutation lemmas -/

/-- Freshly created relations hold no index entries. -/
theorem newRelation_entries_nil (schema name : String) (attrs : List Attribute)
    (pk : List String) :
    ∀ ix ∈ (NewRelation schema name attrs pk).indexes, ix.entries = [] := by
  simp only [NewRelation]
  have hens : ∀ (r : Relation) (pre : String) (as : List String),
      (∀ ix ∈ r.indexes, ix.entries = []) →
      ∀ ix ∈ (r.ensureHashIndex pre as).indexes, ix.entries = [] := by
    intro r pre as hr ix hix
    rcases ensureHashIndex_cases r pre as with heq | ⟨_, _, ix0, heq, he0, _, _, _⟩
    · rw [heq] at hix; exact hr ix hix
    · rw [heq] at hix
      simp only at hix
      rcases List.mem_append.mp hix with hix | hix
      · exact hr ix hix
      · simp only [List.mem_singleton] at hix
        subst hix
        exact he0
  have hfk : ∀ (r : Relation) (fk : ForeignKey),
      (∀ ix ∈ r.indexes, ix.entries = []) →
      ∀ ix ∈ ((if fk.localColumns.isEmpty then r
        else r.ensureHashIndex "fk_" fk.localColumns)).indexes, ix.entries = [] := by
    intro r fk h
    split
    · exact h
    · exact hens _ _ _ h
  have huniq : ∀ (r : Relation) (a : Attribute),
      (∀ ix ∈ r.indexes, ix.entries = []) →
      ∀ ix ∈ ((if a.unique then r.ensureHashIndex "unique_" [a.name]
        else r)).indexes, ix.entries = [] := by
    intro r a h
    split
    · exact hens _ _ _ h
    · exact h
  refine foldl_preserve _ hfk _ _ (foldl_preserve _ huniq _ _ ?_)
  split
  · intro ix hix; cases hix
  · exact hens _ _ _ (fun ix hix => by cases hix)

/-- Freshly created relations are well-formed. -/
theorem relWF_newRelation (schema name : String) (attrs : List Attribute)
    (pk : List String) : RelWF (NewRelation schema name attrs pk) := by
  have hrows : (NewRelation schema name attrs pk).rows = [] := by
    simp only [NewRelation]
    have hens : ∀ (r : Relation) (pre : String) (as : List String),
        r.rows = [] → (r.ensureHashIndex pre as).rows = [] := by
      intro r pre as hr
      rcases ensureHashIndex_cases r pre as with heq | ⟨_, _, ix0, heq, _⟩
      · rw [heq]; exact hr
      · rw [heq]; exact hr
    have hfk : ∀ (r : Relation) (fk : ForeignKey),
        r.rows = [] → ((if fk.localColumns.isEmpty then r
          else r.ensureHashIndex "fk_" fk.localColumns)).rows = [] := by
      intro r fk h
      split
      · exact h
      · exact hens _ _ _ h
    have huniq : ∀ (r : Relation) (a : Attribute),
        r.rows = [] → ((if a.unique then r.ensureHashIndex "unique_" [a.name]
          else r)).rows = [] := by
      intro r a h
      split
      · exact hens _ _ _ h
      · exact h
    refine foldl_preserve _ hfk _ _ (foldl_preserve _ huniq _ _ ?_)
    split
    · rfl
    · exact hens _ _ _ rfl
  refine ⟨?_, ?_, ?_⟩
  · rw [hrows]; exact List.nodup_nil
  · rw [hrows]; intro p hp; cases hp
  · intro ix hix
    have he := newRelation_entries_nil schema name attrs pk ix hix
    constructor
    · intro e hee
      rw [he] at hee
      cases hee
    · rw [hrows]
      intro p hp
      cases hp

theorem listModify_eq_set {α : Type _} {l : List α} {i : Nat} {a : α}
    (h : l.get? i = some a) (f : α → α) : listModify l i f = l.set i (f a) := by
  unfold listModify
  rw [h]

theorem get?_set_self' {α : Type _} {l : List α} {i : Nat} {a : α}
    (h : l.get? i = some a) (b : α) : (l.set i b).get? i = some b := by
  rw [List.get?_eq_getElem?] at h ⊢
  exact List.getElem?_set_self (List.getElem?_eq_some.mp h).1

theorem mem_listModify {α : Type _} {l : List α} {i : Nat} {f : α → α} {b : α}
    (h : b ∈ listModify l i f) : b ∈ l ∨ ∃ a ∈ l, b = f a := by
  unfold listModify at h
  cases hg : l.get? i with
  | none => rw [hg] at h; exact Or.inl h
  | some a =>
    rw [hg] at h
    rcases List.mem_or_eq_of_mem_set h with h | h
    · exact Or.inl h
    · exact Or.inr ⟨a, List.get?_mem hg, h⟩

/-- Decomposition of a successful `Engine.atRelation` call. -/
theorem atRelation_ok {α : Type _} {e : Engine} {schema rel : String}
    {f : Relation → Except String (Relation × α)} {mk : Nat → Nat → α → UndoRec}
    {e' : Engine} {u : UndoRec}
    (h : e.atRelation schema rel f mk = .ok (e', u)) :
    ∃ sp nm s rp rnm r r' a,
      e.schemas.get? sp = some (nm, s) ∧
      s.relations.get? rp = some (rnm, r) ∧
      f r = .ok (r', a) ∧ u = mk sp rp a ∧
      e' = e.modifySchema sp (fun s => s.modifyRel rp (fun _ => r')) := by
  unfold Engine.atRelation at h
  cases hsi : e.schemaIdx schema with
  | none => rw [hsi] at h; cases h
  | some sp =>
    rw [hsi] at h
    dsimp only at h
    cases hs : e.schemas.get? sp with
    | none => rw [hs] at h; cases h
    | some q =>
      rw [hs] at h
      obtain ⟨nm, s⟩ := q
      dsimp only at h
      cases hri : s.relIdx rel with
      | none => rw [hri] at h; cases h
      | some rp =>
        rw [hri] at h
        dsimp only at h
        cases hr : s.relations.get? rp with
        | none => rw [hr] at h; cases h
        | some q2 =>
          rw [hr] at h
          obtain ⟨rnm, r⟩ := q2
          dsimp only at h
          cases hf : f r with
          | error err => rw [hf] at h; cases h
          | ok p =>
            rw [hf] at h
            obtain ⟨r', a⟩ := p
            dsimp only at h
            simp only [Except.ok.injEq, Prod.mk.injEq] at h
            exact ⟨sp, nm, s, rp, rnm, r, r', a, hs, hr, hf, h.2.symm, h.1.symm⟩

/-- Undoing a relation replacement at `(sp, rp)` with a function that maps
the new relation back to the old one restores the engine exactly. -/
theorem modify_modify_undo {e : Engine} {sp : Nat} {nm : String} {s : Schema}
    {rp : Nat} {rnm : String} {r : Relation} (r' : Relation) (g : Relation → Relation)
    (hs : e.schemas.get? sp = some (nm, s))
    (hr : s.relations.get? rp = some (rnm, r))
    (hg : g r' = r) :
    ((e.modifySchema sp (fun s => s.modifyRel rp (fun _ => r'))).modifySchema sp
      (fun s => s.modifyRel rp g)) = e := by
  unfold Engine.modifySchema
  rw [listModify_eq_set hs]
  simp only
  have hs1 : ((e.schemas.set sp
      (nm, s.modifyRel rp (fun _ => r'))).get? sp) = some (nm, s.modifyRel rp (fun _ => r')) :=
    get?_set_self' hs _
  rw [listModify_eq_set hs1]
  simp only [List.set_set]
  have hrel1 : (s.modifyRel rp (fun _ => r')).relations.get? rp = some (rnm, r') := by
    unfold Schema.modifyRel
    simp only
    rw [listModify_eq_set hr]
    exact get?_set_self' hr _
  have : (s.modifyRel rp (fun _ => r')).modifyRel rp g = s := by
    unfold Schema.modifyRel
    rw [listModify_eq_set hr]
    simp only
    rw [listModify_eq_set (get?_set_self' hr ((rnm, r') : String × Relation))]
    simp only [List.set_set, hg]
    rw [listSet_self _ _ _ hr]
  rw [this]
  rw [listSet_self _ _ _ hs]

/-- Replacing a relation by a well-formed one preserves engine
well-formedness. -/
theorem engineWF_modify {e : Engine} {sp rp : Nat}
    (hwf : EngineWF e) {r' : Relation} (hwf' : RelWF r') :
    EngineWF (e.modifySchema sp (fun s => s.modifyRel rp (fun _ => r'))) := by
  intro q hq p hp
  unfold Engine.modifySchema at hq
  simp only at hq
  rcases mem_listModify hq with hq | ⟨a, ha, hqa⟩
  · exact hwf q hq p hp
  · subst hqa
    simp only [Schema.modifyRel] at hp
    rcases mem_listModify hp with hp | ⟨b, hb, hpb⟩
    · exact hwf a ha p hp
    · subst hpb
      exact hwf'

/-- Every successful mutation's change-log record is an exact inverse:
applying it to the post-state restores the pre-state. -/
theorem applyUndo_applyMutation {e : Engine} {m : Mutation} {e' : Engine}
    {u : UndoRec} (hwf : EngineWF e) (h : applyMutation e m = .ok (e', u)) :
    applyUndo e' u = e := by
  cases m with
  | createSchema name =>
    unfold applyMutation at h
    dsimp only at h
    cases hsi : e.schemaIdx name with
    | some sp => rw [hsi] at h; cases h
    | none =>
      rw [hsi] at h
      simp only [Except.ok.injEq, Prod.mk.injEq] at h
      obtain ⟨he', hu⟩ := h
      subst he' hu
      simp [applyUndo, List.dropLast_concat]
  | dropSchema name =>
    unfold applyMutation at h
    dsimp only at h
    cases hsi : e.schemaIdx name with
    | none => rw [hsi] at h; cases h
    | some sp =>
      rw [hsi] at h
      dsimp only at h
      cases hs : e.schemas.get? sp with
      | none => rw [hs] at h; cases h
      | some q =>
        rw [hs] at h
        obtain ⟨nm, s⟩ := q
        dsimp only at h
        simp only [Except.ok.injEq, Prod.mk.injEq] at h
        obtain ⟨he', hu⟩ := h
        subst he' hu
        simp only [applyUndo]
        rw [insertIdx_eraseIdx_self _ _ _ hs]
  | createRelation schema rel attrs pk =>
    unfold applyMutation at h
    dsimp only at h
    cases hsi : e.schemaIdx schema with
    | none => rw [hsi] at h; cases h
    | some sp =>
      rw [hsi] at h
      dsimp only at h
      cases hs : e.schemas.get? sp with
      | none => rw [hs] at h; cases h
      | some q =>
        rw [hs] at h
        obtain ⟨nm, s⟩ := q
        dsimp only at h
        cases hri : s.relIdx rel with
        | some rp =>
          rw [hri] at h
          dsimp only at h
          cases hr : s.relations.get? rp with
          | none => rw [hr] at h; cases h
          | some q2 =>
            rw [hr] at h
            obtain ⟨rnm, old⟩ := q2
            dsimp only at h
            simp only [Except.ok.injEq, Prod.mk.injEq] at h
            obtain ⟨he', hu⟩ := h
            subst he' hu
            simp only [applyUndo, Engine.modifySchema]
            rw [listModify_eq_set hs]
            simp only
            rw [listModify_eq_set (get?_set_self' hs _)]
            simp only [List.set_set]
            rw [listSet_self _ _ _ hr]
            rw [show ({ name := s.name, relations := s.relations } : Schema) = s from rfl]
            rw [listSet_self _ _ _ hs]
        | none =>
          rw [hri] at h
          dsimp only at h
          simp only [Except.ok.injEq, Prod.mk.injEq] at h
          obtain ⟨he', hu⟩ := h
          subst he' hu
          simp only [applyUndo, Engine.modifySchema]
          rw [listModify_eq_set hs]
          simp only
          rw [listModify_eq_set (get?_set_self' hs _)]
          simp only [List.set_set, List.dropLast_concat]
          rw [show ({ name := s.name, relations := s.relations } : Schema) = s from rfl]
          rw [listSet_self _ _ _ hs]
  | dropRelation schema rel =>
    unfold applyMutation at h
    dsimp only at h
    cases hsi : e.schemaIdx schema with
    | none => rw [hsi] at h; cases h
    | some sp =>
      rw [hsi] at h
      dsimp only at h
      cases hs : e.schemas.get? sp with
      | none => rw [hs] at h; cases h
      | some q =>
        rw [hs] at h
        obtain ⟨nm, s⟩ := q
        dsimp only at h
        cases hri : s.relIdx rel with
        | none => rw [hri] at h; cases h
        | some rp =>
          rw [hri] at h
          dsimp only at h
          cases hr : s.relations.get? rp with
          | none => rw [hr] at h; cases h
          | some q2 =>
            rw [hr] at h
            obtain ⟨rnm, r⟩ := q2
            dsimp only at h
            simp only [Except.ok.injEq, Prod.mk.injEq] at h
            obtain ⟨he', hu⟩ := h
            subst he' hu
            simp only [applyUndo, Engine.modifySchema]
            rw [listModify_eq_set hs]
            simp only
            rw [listModify_eq_set (get?_set_self' hs _)]
            simp only [List.set_set]
            rw [insertIdx_eraseIdx_self _ _ _ hr]
            rw [show ({ name := s.name, relations := s.relations } : Schema) = s from rfl]
            rw [listSet_self _ _ _ hs]
  | insertRow schema rel t =>
    unfold applyMutation at h
    dsimp only at h
    rcases atRelation_ok h with ⟨sp, nm, s, rp, rnm, r, r', a, hs, hr, hf, hu, he'⟩
    subst hu he'
    have hr'eq : r.insertRow t = r' := congrArg Prod.fst (Except.ok.inj hf)
    have hrwf : RelWF r := hwf (nm, s) (List.get?_mem hs) (rnm, r) (List.get?_mem hr)
    have hg : r'.undoInsert t = r := by
      rw [← hr'eq]
      exact undoInsert_insertRow r t (fun ix hix => (hrwf.2.2 ix hix).1)
    exact modify_modify_undo r' _ hs hr hg
  | deleteRow schema rel id =>
    unfold applyMutation at h
    dsimp only at h
    rcases atRelation_ok h with ⟨sp, nm, s, rp, rnm, r, r', a, hs, hr, hf, hu, he'⟩
    subst hu he'
    have hrwf : RelWF r := hwf (nm, s) (List.get?_mem hs) (rnm, r) (List.get?_mem hr)
    have hg : r'.undoDelete a.1 id a.2.1 a.2.2 = r :=
      undoDelete_deleteRowById hrwf hf
    exact modify_modify_undo r' _ hs hr hg
  | updateRow schema rel id vals =>
    unfold applyMutation at h
    dsimp only at h
    rcases atRelation_ok h with ⟨sp, nm, s, rp, rnm, r, r', a, hs, hr, hf, hu, he'⟩
    subst hu he'
    have hrwf : RelWF r := hwf (nm, s) (List.get?_mem hs) (rnm, r) (List.get?_mem hr)
    have hg : r'.undoUpdate a.1 id a.2.1 a.2.2 = r :=
      undoUpdate_updateRowById hrwf hf
    exact modify_modify_undo r' _ hs hr hg

/-- Successful mutations preserve engine well-formedness. -/
theorem applyMutation_wf {e : Engine} {m : Mutation} {e' : Engine}
    {u : UndoRec} (hwf : EngineWF e) (h : applyMutation e m = .ok (e', u)) :
    EngineWF e' := by
  cases m with
  | createSchema name =>
    unfold applyMutation at h
    dsimp only at h
    cases hsi : e.schemaIdx name with
    | some sp => rw [hsi] at h; cases h
    | none =>
      rw [hsi] at h
      simp only [Except.ok.injEq, Prod.mk.injEq] at h
      obtain ⟨he', _⟩ := h
      subst he'
      intro q hq p hp
      rcases List.mem_append.mp hq with hq | hq
      · exact hwf q hq p hp
      · simp only [List.mem_singleton] at hq
        subst hq
        simp only [NewSchema] at hp
        cases hp
  | dropSchema name =>
    unfold applyMutation at h
    dsimp only at h
    cases hsi : e.schemaIdx name with
    | none => rw [hsi] at h; cases h
    | some sp =>
      rw [hsi] at h
      dsimp only at h
      cases hs : e.schemas.get? sp with
      | none => rw [hs] at h; cases h
      | some q =>
        rw [hs] at h
        obtain ⟨nm, s⟩ := q
        dsimp only at h
        simp only [Except.ok.injEq, Prod.mk.injEq] at h
        obtain ⟨he', _⟩ := h
        subst he'
        intro q hq p hp
        exact hwf q (List.mem_of_mem_eraseIdx hq) p hp
  | createRelation schema rel attrs pk =>
    unfold applyMutation at h
    dsimp only at h
    cases hsi : e.schemaIdx schema with
    | none => rw [hsi] at h; cases h
    | some sp =>
      rw [hsi] at h
      dsimp only at h
      cases hs : e.schemas.get? sp with
      | none => rw [hs] at h; cases h
      | some q =>
        rw [hs] at h
        obtain ⟨nm, s⟩ := q
        dsimp only at h
        cases hri : s.relIdx rel with
        | some rp =>
          rw [hri] at h
          dsimp only at h
          cases hr : s.relations.get? rp with
          | none => rw [hr] at h; cases h
          | some q2 =>
            rw [hr] at h
            obtain ⟨rnm, old⟩ := q2
            dsimp only at h
            simp only [Except.ok.injEq, Prod.mk.injEq] at h
            obtain ⟨he', _⟩ := h
            subst he'
            intro q hq p hp
            simp only [Engine.modifySchema] at hq
            rcases mem_listModify hq with hq | ⟨a, ha, hqa⟩
            · exact hwf q hq p hp
            · subst hqa
              simp only at hp
              rcases List.mem_or_eq_of_mem_set hp with hp | hp
              · exact hwf a ha p hp
              · subst hp
                exact relWF_newRelation _ _ _ _
        | none =>
          rw [hri] at h
          dsimp only at h
          simp only [Except.ok.injEq, Prod.mk.injEq] at h
          obtain ⟨he', _⟩ := h
          subst he'
          intro q hq p hp
          simp only [Engine.modifySchema] at hq
          rcases mem_listModify hq with hq | ⟨a, ha, hqa⟩
          · exact hwf q hq p hp
          · subst hqa
            simp only at hp
            rcases List.mem_append.mp hp with hp | hp
            · exact hwf a ha p hp
            · simp only [List.mem_singleton] at hp
              subst hp
              exact relWF_newRelation _ _ _ _
  | dropRelation schema rel =>
    unfold applyMutation at h
    dsimp only at h
    cases hsi : e.schemaIdx schema with
    | none => rw [hsi] at h; cases h
    | some sp =>
      rw [hsi] at h
      dsimp only at h
      cases hs : e.schemas.get? sp with
      | none => rw [hs] at h; cases h
      | some q =>
        rw [hs] at h
        obtain ⟨nm, s⟩ := q
        dsimp only at h
        cases hri : s.relIdx rel with
        | none => rw [hri] at h; cases h
        | some rp =>
          rw [hri] at h
          dsimp only at h
          cases hr : s.relations.get? rp with
          | none => rw [hr] at h; cases h
          | some q2 =>
            rw [hr] at h
            obtain ⟨rnm, r⟩ := q2
            dsimp only at h
            simp only [Except.ok.injEq, Prod.mk.injEq] at h
            obtain ⟨he', _⟩ := h
            subst he'
            intro q hq p hp
            simp only [Engine.modifySchema] at hq
            rcases mem_listModify hq with hq | ⟨a, ha, hqa⟩
            · exact hwf q hq p hp
            · subst hqa
              simp only at hp
              exact hwf a ha p (List.mem_of_mem_eraseIdx hp)
  | insertRow schema rel t =>
    unfold applyMutation at h
    dsimp only at h
    rcases atRelation_ok h with ⟨sp, nm, s, rp, rnm, r, r', a, hs, hr, hf, hu, he'⟩
    subst he'
    have hr'eq : r.insertRow t = r' := congrArg Prod.fst (Except.ok.inj hf)
    have hrwf : RelWF r := hwf (nm, s) (List.get?_mem hs) (rnm, r) (List.get?_mem hr)
    exact engineWF_modify hwf (hr'eq ▸ insertRow_wf t hrwf)
  | deleteRow schema rel id =>
    unfold applyMutation at h
    dsimp only at h
    rcases atRelation_ok h with ⟨sp, nm, s, rp, rnm, r, r', a, hs, hr, hf, hu, he'⟩
    subst he'
    have hrwf : RelWF r := hwf (nm, s) (List.get?_mem hs) (rnm, r) (List.get?_mem hr)
    exact engineWF_modify hwf (deleteRowById_wf hrwf hf)
  | updateRow schema rel id vals =>
    unfold applyMutation at h
    dsimp only at h
    rcases atRelation_ok h with ⟨sp, nm, s, rp, rnm, r, r', a, hs, hr, hf, hu, he'⟩
    subst he'
    have hrwf : RelWF r := hwf (nm, s) (List.get?_mem hs) (rnm, r) (List.get?_mem hr)
    exact engineWF_modify hwf (updateRowById_wf hrwf hf)

/-- Core of claim C4: executing any statement sequence and rolling back
restores the engine state exactly. -/
theorem rollback_execMutations {e : Engine} (ms : List Mutation)
    (hwf : EngineWF e) :
    Rollback (execMutations e ms).1 (execMutations e ms).2 = e := by
  induction ms generalizing e with
  | nil => simp [execMutations, Rollback]
  | cons m ms ih =>
    unfold execMutations
    cases hm : applyMutation e m with
    | error err =>
      exact ih hwf
    | ok p =>
      obtain ⟨e1, u⟩ := p
      dsimp only
      unfold Rollback
      rw [List.reverse_cons, List.foldl_append]
      have ih1 := ih (applyMutation_wf hwf hm)
      unfold Rollback at ih1
      rw [ih1]
      simp only [List.foldl_cons, List.foldl_nil]
      exact applyUndo_applyMutation hwf hm

/-! ### Index–row correspondence under inserts -/

theorem mapM_eq_some_of_isSome {α β : Type _} (f : α → Option β) (d : β) :
    ∀ (l : List α), (∀ a ∈ l, (f a).isSome = true) →
      l.mapM f = some (l.map (fun a => (f a).getD d))
  | [], _ => rfl
  | a :: as, h => by
    rw [List.mapM_cons]
    cases hfa : f a with
    | none =>
      have := h a (List.mem_cons_self _ _)
      rw [hfa] at this
      cases this
    | some b =>
      rw [mapM_eq_some_of_isSome f d as (fun x hx => h x (List.mem_cons_of_mem _ hx))]
      simp [hfa]

/-- When every attribute resolves and no matching index exists yet,
`ensureHashIndex` really does append the new index. -/
theorem ensureHashIndex_append {r : Relation} {attrs : List String} (pre : String)
    (hne : attrs ≠ []) (hno : r.hasIndexOn attrs = false)
    (hfound : ∀ a ∈ attrs, (attrIndexOf r.attributes a).isSome = true) :
    r.ensureHashIndex pre attrs = { r with indexes := r.indexes ++
      [NewHashIndex (pre ++ r.schema ++ "_" ++ r.name ++ "_" ++ String.intercalate "_" attrs)
        r.name attrs (attrs.map (fun a => (attrIndexOf r.attributes a).getD 0))] } := by
  unfold Relation.ensureHashIndex
  rw [if_neg (by simpa [List.isEmpty_iff] using hne)]
  rw [if_neg (by simp [hno])]
  rw [mapM_eq_some_of_isSome _ 0 _ hfound]

theorem entriesAdd_of_find?_none {key : List SqlValue} {h : Nat} :
    ∀ {es : List IndexEntry}, es.find? (fun e => e.key == key) = none →
      entriesAdd key h es = es ++ [⟨key, [h]⟩]
  | [], _ => by simp [entriesAdd]
  | e :: es, hf => by
    by_cases hbe : (e.key == key) = true
    · rw [List.find?_cons_of_pos (p := fun x : IndexEntry => x.key == key) _ hbe] at hf
      cases hf
    · rw [List.find?_cons_of_neg (p := fun x : IndexEntry => x.key == key) _ hbe] at hf
      simp only [entriesAdd, hbe, if_false, Bool.false_eq_true]
      rw [entriesAdd_of_find?_none hf]
      rfl

theorem find?_cons_isSome {α : Type _} (p : α → Bool) (a : α) (l : List α) :
    ((a :: l).find? p).isSome = (p a || (l.find? p).isSome) := by
  by_cases h : p a = true
  · rw [List.find?_cons_of_pos _ h, h]
    rfl
  · rw [List.find?_cons_of_neg _ h]
    rw [Bool.not_eq_true] at h
    rw [h, Bool.false_or]

theorem find?_entriesAdd_isSome (key : List SqlValue) (h : Nat) (key' : List SqlValue) :
    ∀ (es : List IndexEntry),
      (((entriesAdd key h es).find? (fun e => e.key == key')).isSome = true ↔
        (key' = key ∨ (es.find? (fun e => e.key == key')).isSome = true))
  | [] => by
    simp only [entriesAdd]
    rw [find?_cons_isSome]
    simp only [List.find?_nil, Option.isSome_none, Bool.or_false, List.find?_nil]
    constructor
    · intro hk
      exact Or.inl (beq_iff_eq.mp hk).symm
    · rintro (rfl | hfalse)
      · simp
      · cases hfalse
  | e :: es => by
    by_cases hbe : (e.key == key) = true
    · have hek : e.key = key := beq_iff_eq.mp hbe
      simp only [entriesAdd, hbe, if_true]
      rw [find?_cons_isSome, find?_cons_isSome]
      simp only [Bool.or_eq_true, beq_iff_eq, hek]
      constructor
      · rintro (hk | hs)
        · exact Or.inr (Or.inl hk)
        · exact Or.inr (Or.inr hs)
      · rintro (rfl | hk | hs)
        · exact Or.inl rfl
        · exact Or.inl hk
        · exact Or.inr hs
    · simp only [entriesAdd, hbe, if_false, Bool.false_eq_true]
      rw [find?_cons_isSome, find?_cons_isSome]
      simp only [Bool.or_eq_true]
      have ih := find?_entriesAdd_isSome key h key' es
      constructor
      · rintro (hk | hs)
        · exact Or.inr (Or.inl hk)
        · rcases ih.mp hs with hk | hs
          · exact Or.inl hk
          · exact Or.inr (Or.inr hs)
      · rintro (rfl | hk | hs)
        · exact Or.inr (ih.mpr (Or.inl rfl))
        · exact Or.inl hk
        · exact Or.inr (ih.mpr (Or.inr hs))

theorem get_isSome_iff_find? (ix : HashIndex) (key : List SqlValue) :
    (ix.Get key).isSome = (ix.entries.find? (fun e => e.key == key)).isSome := by
  unfold HashIndex.Get
  cases ix.entries.find? (fun e => e.key == key) <;> rfl

/-- `insertRow` preserves the index–row correspondence of every index. -/
theorem indexRowsIff_insertRow {r : Relation} (t : Tuple)
    (h : ∀ ix ∈ r.indexes, IndexRowsIff ix r.rows) :
    ∀ ix ∈ (r.insertRow t).indexes, IndexRowsIff ix (r.insertRow t).rows := by
  intro ix' hix'
  simp only [Relation.insertRow] at hix'
  rcases List.mem_map.mp hix' with ⟨ix0, hix0, hix0e⟩
  subst hix0e
  intro key
  simp only [Relation.insertRow]
  rw [get_isSome_iff_find?]
  have hkeys : (ix0.Add t r.nextId).entries = entriesAdd (ix0.keyOf t) r.nextId ix0.entries := rfl
  have hkeyof : (ix0.Add t r.nextId).keyOf = ix0.keyOf := rfl
  rw [hkeys, hkeyof]
  rw [find?_entriesAdd_isSome]
  rw [← get_isSome_iff_find?, h ix0 hix0 key]
  constructor
  · rintro (rfl | ⟨p, hp, hpk⟩)
    · exact ⟨(r.nextId, t), by simp⟩
    · exact ⟨p, List.mem_append_left _ hp, hpk⟩
  · rintro ⟨p, hp, hpk⟩
    rcases List.mem_append.mp hp with hp | hp
    · exact Or.inr ⟨p, hp, hpk⟩
    · simp only [List.mem_singleton] at hp
      subst hp
      exact Or.inl hpk.symm

/-- A successful checked insert is exactly an `insertRow`. -/
theorem checkedInsertRow_ok {r : Relation} {t : Tuple} {r' : Relation}
    (h : r.checkedInsertRow t = .ok r') : r' = r.insertRow t := by
  unfold Relation.checkedInsertRow at h
  cases hc : r.CheckPrimaryKey t with
  | error err => rw [hc] at h; cases h
  | ok b =>
    rw [hc] at h
    cases b with
    | false => dsimp only at h; cases h
    | true =>
      dsimp only at h
      split at h
      · cases h
      · exact (Except.ok.inj h).symm

/-- After any sequence of checked inserts starting from a fresh relation,
every index is in correspondence with the rows. -/
theorem applyInserts_indexRowsIff (schema name : String) (attrs : List Attribute)
    (pk : List String) (ts : List Tuple) :
    ∀ ix ∈ ((NewRelation schema name attrs pk).applyInserts ts).indexes,
      IndexRowsIff ix ((NewRelation schema name attrs pk).applyInserts ts).rows := by
  unfold Relation.applyInserts
  have hstep : ∀ (r : Relation) (t : Tuple),
      (∀ ix ∈ r.indexes, IndexRowsIff ix r.rows) →
      (∀ ix ∈ ((match r.checkedInsertRow t with
        | .ok r' => r'
        | .error _ => r)).indexes,
        IndexRowsIff ix ((match r.checkedInsertRow t with
          | .ok r' => r'
          | .error _ => r)).rows) := by
    intro r t h
    cases hc : r.checkedInsertRow t with
    | ok r' =>
      rw [checkedInsertRow_ok hc]
      exact indexRowsIff_insertRow t h
    | error err => exact h
  refine foldl_preserve _ hstep _ _ ?_
  intro ix hix key
  have he := newRelation_entries_nil schema name attrs pk ix hix
  have hr : (NewRelation schema name attrs pk).rows = [] := by
    have := (relWF_newRelation schema name attrs pk)
    by_contra hne
    cases hrows : (NewRelation schema name attrs pk).rows with
    | nil => exact hne hrows
    | cons p ps =>
      have hmem : p ∈ (NewRelation schema name attrs pk).rows := by
        rw [hrows]; exact List.mem_cons_self _ _
      have hhr := (this.2.2 ix hix).2 p hmem
      unfold IndexHasRow at hhr
      rw [he] at hhr
      cases hhr
  rw [hr]
  constructor
  · intro hs
    rw [get_isSome_iff_find?, he] at hs
    simp at hs
  · rintro ⟨p, hp, _⟩
    cases hp

/-- `ensureHashIndex` does not change the `pk` field. -/
theorem ensureHashIndex_pk (r : Relation) (pre : String) (as : List String) :
    (r.ensureHashIndex pre as).pk = r.pk := by
  rcases ensureHashIndex_cases r pre as with heq | ⟨_, _, ix0, heq, _⟩ <;> rw [heq]

/-- The `pk` positions of a freshly created relation. -/
theorem newRelation_pk (schema name : String) (attrs : List Attribute)
    (pk : List String) :
    (NewRelation schema name attrs pk).pk
      = pk.map (fun k => (attrIndexOf attrs k).getD 0) := by
  simp only [NewRelation]
  have hfk : ∀ (r : Relation) (fk : ForeignKey),
      r.pk = pk.map (fun k => (attrIndexOf attrs k).getD 0) →
      ((if fk.localColumns.isEmpty then r
        else r.ensureHashIndex "fk_" fk.localColumns)).pk
        = pk.map (fun k => (attrIndexOf attrs k).getD 0) := by
    intro r fk h
    split
    · exact h
    · rw [ensureHashIndex_pk]; exact h
  have huniq : ∀ (r : Relation) (a : Attribute),
      r.pk = pk.map (fun k => (attrIndexOf attrs k).getD 0) →
      ((if a.unique then r.ensureHashIndex "unique_" [a.name]
        else r)).pk = pk.map (fun k => (attrIndexOf attrs k).getD 0) := by
    intro r a h
    split
    · rw [ensureHashIndex_pk]; exact h
    · exact h
  refine foldl_preserve _ hfk _ _ (foldl_preserve _ huniq _ _ ?_)
  split
  · rfl
  · rw [ensureHashIndex_pk]

/-- Preservation of a property along checked inserts. -/
theorem applyInserts_preserve {P : Relation → Prop}
    (hstep : ∀ r t r', r.checkedInsertRow t = .ok r' → P r → P r') :
    ∀ (ts : List Tuple) (r : Relation), P r → P (r.applyInserts ts) := by
  intro ts r h
  unfold Relation.applyInserts
  refine foldl_preserve _ ?_ _ _ h
  intro r t hP
  cases hc : r.checkedInsertRow t with
  | ok r' => exact hstep r t r' hc hP
  | error err => exact hP

/-- The index list of a freshly created relation with a valid, non-empty
primary key starts with the primary-key index; no later index carries a
`pk`-style name. -/
theorem newRelation_head_pk (schema name : String) (attrs : List Attribute)
    (pkNames : List String) (hpk : pkNames ≠ [])
    (hfound : ∀ k ∈ pkNames, (attrIndexOf attrs k).isSome = true) :
    ∃ hd rest, (NewRelation schema name attrs pkNames).indexes = hd :: rest ∧
      hasPkNamePre hd.name = true ∧
      hd.attrsIdx = pkNames.map (fun k => (attrIndexOf attrs k).getD 0) ∧
      ∀ ix ∈ rest, hasPkNamePre ix.name = false := by
  simp only [NewRelation]
  set pk0 := pkNames.map (fun k => (attrIndexOf attrs k).getD 0) with hpk0
  have hr0pk : pk0.isEmpty = false := by
    cases hh : pkNames with
    | nil => exact absurd hh hpk
    | cons a as => simp [hpk0, hh, List.isEmpty]
  rw [if_neg (by simp [hr0pk])]
  have happ := @ensureHashIndex_append
    { name := name, schema := schema, attributes := attrs, pk := pk0,
      rows := [], nextId := 0, indexes := [] } pkNames "pk_" hpk
    (by simp [Relation.hasIndexOn]) (by simpa using hfound)
  rw [happ]
  have hinv : ∀ (r : Relation) (pre : String) (as : List String),
      (pre = "unique_" ∨ pre = "fk_") →
      (∃ hd rest, r.indexes = hd :: rest ∧ hasPkNamePre hd.name = true ∧
        hd.attrsIdx = pk0 ∧ ∀ ix ∈ rest, hasPkNamePre ix.name = false) →
      (∃ hd rest, (r.ensureHashIndex pre as).indexes = hd :: rest ∧
        hasPkNamePre hd.name = true ∧
        hd.attrsIdx = pk0 ∧ ∀ ix ∈ rest, hasPkNamePre ix.name = false) := by
    intro r pre as hpre ⟨hd, rest, heq, hnm, hidx, hrest⟩
    rcases ensureHashIndex_cases r pre as with he | ⟨_, _, ix0, he, _, _, ⟨suf, hname⟩, _⟩
    · rw [he]
      exact ⟨hd, rest, heq, hnm, hidx, hrest⟩
    · rw [he]
      simp only [heq]
      refine ⟨hd, rest ++ [ix0], by simp, hnm, hidx, ?_⟩
      intro ix hix
      rcases List.mem_append.mp hix with hix | hix
      · exact hrest ix hix
      · simp only [List.mem_singleton] at hix
        subst hix
        rw [hname]
        rcases hpre with hpre | hpre <;> rw [hpre]
        · exact hasPkNamePre_unique suf
        · exact hasPkNamePre_fk suf
  have hfkstep : ∀ (r : Relation) (fk : ForeignKey),
      (∃ hd rest, r.indexes = hd :: rest ∧ hasPkNamePre hd.name = true ∧
        hd.attrsIdx = pk0 ∧ ∀ ix ∈ rest, hasPkNamePre ix.name = false) →
      (∃ hd rest, ((if fk.localColumns.isEmpty then r
          else r.ensureHashIndex "fk_" fk.localColumns)).indexes = hd :: rest ∧
        hasPkNamePre hd.name = true ∧
        hd.attrsIdx = pk0 ∧ ∀ ix ∈ rest, hasPkNamePre ix.name = false) := by
    intro r fk h
    split
    · exact h
    · exact hinv r "fk_" fk.localColumns (Or.inr rfl) h
  have huniqstep : ∀ (r : Relation) (a : Attribute),
      (∃ hd rest, r.indexes = hd :: rest ∧ hasPkNamePre hd.name = true ∧
        hd.attrsIdx = pk0 ∧ ∀ ix ∈ rest, hasPkNamePre ix.name = false) →
      (∃ hd rest, ((if a.unique then r.ensureHashIndex "unique_" [a.name]
          else r)).indexes = hd :: rest ∧
        hasPkNamePre hd.name = true ∧
        hd.attrsIdx = pk0 ∧ ∀ ix ∈ rest, hasPkNamePre ix.name = false) := by
    intro r a h
    split
    · exact hinv r "unique_" [a.name] (Or.inl rfl) h
    · exact h
  refine foldl_preserve _ hfkstep _ _ (foldl_preserve _ huniqstep _ _ ?_)
  refine ⟨NewHashIndex ("pk_" ++ schema ++ "_" ++ name ++ "_" ++
      String.intercalate "_" pkNames) name pkNames
      (pkNames.map (fun a => (attrIndexOf attrs a).getD 0)), [], rfl, ?_, rfl, by simp⟩
  simp only [NewHashIndex]
  rw [String.append_assoc, String.append_assoc, String.append_assoc, String.append_assoc]
  exact hasPkNamePre_pk _

theorem get_none_find?_none {ix : HashIndex} {key : List SqlValue}
    (h : ix.Get key = none) : ix.entries.find? (fun e => e.key == key) = none := by
  unfold HashIndex.Get at h
  exact Option.map_eq_none'.mp h

/-- The checks a successful checked insert has passed. -/
theorem checkedInsertRow_ok_checks {r : Relation} {t : Tuple} {r' : Relation}
    (h : r.checkedInsertRow t = .ok r') :
    r.CheckPrimaryKey t = .ok true ∧
    r.indexes.any (fun ix =>
      hasUniqueNamePre ix.name && (ix.Get (ix.keyOf t)).isSome) = false := by
  unfold Relation.checkedInsertRow at h
  cases hc : r.CheckPrimaryKey t with
  | error err => rw [hc] at h; cases h
  | ok b =>
    rw [hc] at h
    cases b with
    | false => dsimp only at h; cases h
    | true =>
      dsimp only at h
      refine ⟨rfl, ?_⟩
      by_cases ha : r.indexes.any (fun ix =>
          hasUniqueNamePre ix.name && (ix.Get (ix.keyOf t)).isSome) = true
      · rw [if_pos ha] at h; cases h
      · simpa using ha

/-- The combined invariant behind the amended claim C6, established for
every relation reachable by checked inserts from `NewRelation`. -/
theorem checkedInserts_pk_invariant (schema name : String) (attrs : List Attribute)
    (pkNames : List String) (ts : List Tuple) (hpk : pkNames ≠ [])
    (hfound : ∀ k ∈ pkNames, (attrIndexOf attrs k).isSome = true) :
    ((NewRelation schema name attrs pkNames).applyInserts ts).pk
        = pkNames.map (fun k => (attrIndexOf attrs k).getD 0) ∧
    (∃ hd rest, ((NewRelation schema name attrs pkNames).applyInserts ts).indexes
          = hd :: rest ∧
        hasPkNamePre hd.name = true ∧
        hd.attrsIdx = pkNames.map (fun k => (attrIndexOf attrs k).getD 0) ∧
        ∀ ix ∈ rest, hasPkNamePre ix.name = false) ∧
    (∀ ix ∈ ((NewRelation schema name attrs pkNames).applyInserts ts).indexes,
        (hasPkNamePre ix.name || hasUniqueNamePre ix.name) = true →
        ∀ e ∈ ix.entries, e.handles.length ≤ 1) ∧
    (∀ ix ∈ ((NewRelation schema name attrs pkNames).applyInserts ts).indexes,
        IndexRowsIff ix ((NewRelation schema name attrs pkNames).applyInserts ts).rows) := by
  have hpk0ne : pkNames.map (fun k => (attrIndexOf attrs k).getD 0) ≠ [] := by
    simpa using hpk
  have hbaseRows : ∀ ix ∈ (NewRelation schema name attrs pkNames).indexes,
      IndexRowsIff ix (NewRelation schema name attrs pkNames).rows := by
    intro ix hix key
    have he := newRelation_entries_nil schema name attrs pkNames ix hix
    constructor
    · intro hs
      rw [get_isSome_iff_find?, he] at hs
      simp at hs
    · rintro ⟨p, hp, _⟩
      have hwfn := relWF_newRelation schema name attrs pkNames
      have hhr := (hwfn.2.2 ix hix).2 p hp
      unfold IndexHasRow at hhr
      rw [he] at hhr
      cases hhr
  refine applyInserts_preserve (P := fun r =>
      r.pk = pkNames.map (fun k => (attrIndexOf attrs k).getD 0) ∧
      (∃ hd rest, r.indexes = hd :: rest ∧ hasPkNamePre hd.name = true ∧
        hd.attrsIdx = pkNames.map (fun k => (attrIndexOf attrs k).getD 0) ∧
        ∀ ix ∈ rest, hasPkNamePre ix.name = false) ∧
      (∀ ix ∈ r.indexes, (hasPkNamePre ix.name || hasUniqueNamePre ix.name) = true →
        ∀ e ∈ ix.entries, e.handles.length ≤ 1) ∧
      (∀ ix ∈ r.indexes, IndexRowsIff ix r.rows)) ?_ ts _
    ⟨newRelation_pk schema name attrs pkNames,
     newRelation_head_pk schema name attrs pkNames hpk hfound,
     ?_, hbaseRows⟩
  · -- step preservation
    intro r t r' hok ⟨hP1, ⟨hd, rest, hieq, hdnm, hdidx, hrest⟩, hP3, hP4⟩
    obtain ⟨hcpk, hany⟩ := checkedInsertRow_ok_checks hok
    have hr' := checkedInsertRow_ok hok
    subst hr'
    have hGetNone : ∀ ix ∈ r.indexes,
        (hasPkNamePre ix.name || hasUniqueNamePre ix.name) = true →
        ix.entries.find? (fun e => e.key == ix.keyOf t) = none := by
      intro ix hix hname
      by_cases hu : hasUniqueNamePre ix.name = true
      · have := List.any_eq_false.mp hany ix hix
        rw [hu] at this
        simp only [Bool.true_and] at this
        have hnone : ix.Get (ix.keyOf t) = none := by
          cases hg : ix.Get (ix.keyOf t) with
          | none => rfl
          | some v => rw [hg] at this; simp at this
        exact get_none_find?_none hnone
      · have hpkname : hasPkNamePre ix.name = true := by
          rcases Bool.or_eq_true_iff.mp hname with hn | hn
          · exact hn
          · exact absurd hn hu
        have hixhd : ix = hd := by
          rw [hieq] at hix
          rcases List.mem_cons.mp hix with hix | hix
          · exact hix
          · exact absurd hpkname (by simp [hrest ix hix])
        rw [hixhd]
        unfold Relation.CheckPrimaryKey at hcpk
        rw [if_neg (by rw [hP1]; simpa [List.isEmpty_iff] using hpk0ne)] at hcpk
        rw [hieq] at hcpk
        rw [List.find?_cons_of_pos (p := fun j : HashIndex => hasPkNamePre j.name)
          _ hdnm] at hcpk
        dsimp only at hcpk
        have hkeys : hd.keyOf t
            = r.pk.map (fun idx => t.values.getD idx SqlValue.null) := by
          unfold HashIndex.keyOf
          rw [hdidx, hP1]
        cases hg : hd.Get (r.pk.map (fun idx => t.values.getD idx SqlValue.null)) with
        | none =>
          have hnone : hd.Get (hd.keyOf t) = none := by rw [hkeys]; exact hg
          exact get_none_find?_none hnone
        | some v => rw [hg] at hcpk; cases hcpk
    refine ⟨hP1, ?_, ?_, indexRowsIff_insertRow t hP4⟩
    · refine ⟨hd.Add t r.nextId, rest.map (fun ix => ix.Add t r.nextId), ?_, hdnm, hdidx, ?_⟩
      · simp only [Relation.insertRow, hieq, List.map_cons]
      · intro ix hix
        rcases List.mem_map.mp hix with ⟨ix0, hix0, hix0e⟩
        subst hix0e
        exact hrest ix0 hix0
    · intro ix' hix' hname
      simp only [Relation.insertRow] at hix'
      rcases List.mem_map.mp hix' with ⟨ix0, hix0, hix0e⟩
      subst hix0e
      have hname0 : (hasPkNamePre ix0.name || hasUniqueNamePre ix0.name) = true := hname
      have hfnone := hGetNone ix0 hix0 hname0
      intro e he
      have hentries : (ix0.Add t r.nextId).entries
          = ix0.entries ++ [⟨ix0.keyOf t, [r.nextId]⟩] := by
        show entriesAdd (ix0.keyOf t) r.nextId ix0.entries = _
        exact entriesAdd_of_find?_none hfnone
      rw [hentries] at he
      rcases List.mem_append.mp he with he | he
      · exact hP3 ix0 hix0 hname0 e he
      · simp only [List.mem_singleton] at he
        subst he
        simp
  · intro ix hix _ e he
    rw [newRelation_entries_nil schema name attrs pkNames ix hix] at he
    cases he

/-! ## Claim theorems -/

/-- C9: for every relation built by `NewRelation`, no two hash indexes are
created on the exact same ordered list of attribute names — primary-key,
unique-column, and foreign-key index creation all go through the
`hasIndexOn` dedup check, so a column serving several roles yields a single
shared hash index. -/
theorem claim_C9 (schema name : String) (attrs : List Attribute) (pk : List String) :
    (NewRelation schema name attrs pk).indexes.Pairwise
      (fun i j => i.attrsName ≠ j.attrsName) :=
  newRelation_indexes_pairwise schema name attrs pk

/-- C10: for every relation whose primary-key attribute list is empty and
every candidate tuple, `CheckPrimaryKey` returns `(true, nil)` without
consulting any index; hence ON CONFLICT targets on a table without a
primary key never detect a conflict. -/
theorem claim_C10 (r : Relation) (t : Tuple) (h : r.pk = []) :
    r.CheckPrimaryKey t = .ok true := by
  unfold Relation.CheckPrimaryKey
  rw [if_pos (by simp [h])]

/-- Witness for C10 at a concrete relation without a primary key. -/
theorem claim_C10_witness :
    (NewRelation "public" "t" [NewAttribute "id" "text"] []).pk = [] ∧
    (NewRelation "public" "t" [NewAttribute "id" "text"] []).CheckPrimaryKey
        ⟨[SqlValue.text "x"]⟩ = .ok true :=
  ⟨by decide, claim_C10 _ _ (by decide)⟩

/-- C7: a SELECT with no FROM clause (and no WHERE) evaluates over the
`SingleRowScanner`, which emits exactly one empty tuple, so exactly one row
is returned whatever the select items are; in particular `SELECT 1` returns
`[[1]]`. -/
theorem claim_C7 :
    (∀ items : List SqlValue, (selectWithoutFrom items).length = 1) ∧
    selectWithoutFrom [SqlValue.int 1] = [[SqlValue.int 1]] :=
  ⟨fun _ => rfl, rfl⟩

/-- C1: after creating `items(id TEXT PRIMARY KEY)` and inserting
`id1..id10` in order, `SELECT * FROM items LIMIT $1 OFFSET $2` with bound
arguments `(3, 2)` succeeds and returns exactly `id3, id4, id5` in that
order; the same LIMIT/OFFSET values given as numeric literals yield the
same rows. -/
theorem claim_C1 :
    limitOffsetQuery itemsRel (.param 1) (.param 2) [SqlValue.int 3, SqlValue.int 2]
        = .ok [⟨[SqlValue.text "id3"]⟩, ⟨[SqlValue.text "id4"]⟩, ⟨[SqlValue.text "id5"]⟩] ∧
    limitOffsetQuery itemsRel (.lit 3) (.lit 2) []
        = .ok [⟨[SqlValue.text "id3"]⟩, ⟨[SqlValue.text "id4"]⟩, ⟨[SqlValue.text "id5"]⟩] :=
  ⟨rfl, rfl⟩

/-- C4: for every well-formed engine state and every sequence of statements
executed inside a transaction, rollback — applying the change log's inverse
operations in reverse order — restores the engine state (all schemas,
relations, rows and indexes) exactly to the state at `begin`; `Rollback` is
a total function, so rollback never fails. -/
theorem claim_C4 (e : Engine) (ms : List Mutation) (h : EngineWF e) :
    Rollback (execMutations e ms).1 (execMutations e ms).2 = e :=
  rollback_execMutations ms h

/-- Witness for C4: a transaction touching every mutation kind on the
standard freshly-opened engine rolls back to exactly the initial state. -/
theorem claim_C4_witness :
    EngineWF NewEngine ∧
    Rollback (execMutations NewEngine demoMutations).1
        (execMutations NewEngine demoMutations).2 = NewEngine :=
  ⟨by decide, claim_C4 NewEngine demoMutations (by decide)⟩

/-- C8 counterexample: the schema `foo` of `engFoo` still contains a
relation, yet `dropSchema` succeeds — the claim that dropping a non-empty
schema is rejected fails on the code. -/
theorem claim_C8_counterexample :
    (∃ p ∈ engFoo.schemas, p.1 = "foo" ∧ p.2.relations ≠ []) ∧
    ∃ res, engFoo.dropSchema "foo" = .ok res := by
  constructor
  · decide
  · exact ⟨_, rfl⟩

/-- C8 (amended): `dropSchema` succeeds exactly on existing schemas —
removing the schema unconditionally, even when it still contains
relations — and returns a schema-does-not-exist error otherwise. -/
theorem claim_C8_amended (e : Engine) (name : String) :
    (∀ s, e.schemas.find? (fun p => p.1 == name) = some s →
        e.dropSchema name
          = .ok ({ e with schemas := e.schemas.eraseP (fun q => q.1 == name) }, s.2)) ∧
    (e.schemas.find? (fun p => p.1 == name) = none →
        e.dropSchema name = .error ("schema does not exist: " ++ name)) := by
  constructor
  · intro s hf
    unfold Engine.dropSchema
    rw [hf]
  · intro hf
    unfold Engine.dropSchema
    rw [hf]

/-- Witness for the amended C8: concrete success on the non-empty `foo`
and the error on a missing schema. -/
theorem claim_C8_witness :
    engFoo.dropSchema "foo"
        = .ok ({ engFoo with
            schemas := engFoo.schemas.eraseP (fun q => q.1 == "foo") },
          ((NewSchema "foo").Add "products"
            (NewRelation "foo" "products"
              [NewAttribute "id" "bigserial", NewAttribute "name" "text"] ["id"]))) ∧
    engFoo.dropSchema "bar" = .error ("schema does not exist: " ++ "bar") :=
  ⟨(claim_C8_amended engFoo "foo").1
    ("foo", (NewSchema "foo").Add "products"
      (NewRelation "foo" "products"
        [NewAttribute "id" "bigserial", NewAttribute "name" "text"] ["id"]))
    (by decide),
   (claim_C8_amended engFoo "bar").2 (by decide)⟩

/-- C6 counterexample: `users(id PK, email UNIQUE)` stores `(1,'a')`; the
candidate `(2,'a')` has the same unique-indexed key values as a stored row,
yet `CheckPrimaryKey` reports no conflict — it consults only the first
index whose name starts with `pk`, never the unique-column indexes. -/
theorem claim_C6_counterexample :
    usersRel.CheckPrimaryKey usersCand = .ok true ∧
    ∃ ix ∈ usersRel.indexes, ix.attrsName = ["email"] ∧
      (ix.Get (ix.keyOf usersCand)).isSome = true := by
  exact ⟨rfl, by decide⟩

/-- C6 (amended): for every relation at rest reachable by checked inserts,
each key in every primary-key and unique-column index maps to at most one
row handle, and `CheckPrimaryKey` — which consults the primary-key index
only — reports a conflict exactly when a stored row already has the same
primary-key values as the candidate tuple. -/
theorem claim_C6_amended (schema name : String) (attrs : List Attribute)
    (pkNames : List String) (ts : List Tuple) (t : Tuple)
    (hpk : pkNames ≠ [])
    (hfound : ∀ k ∈ pkNames, (attrIndexOf attrs k).isSome = true) :
    (∀ ix ∈ ((NewRelation schema name attrs pkNames).applyInserts ts).indexes,
        (hasPkNamePre ix.name || hasUniqueNamePre ix.name) = true →
        ∀ e ∈ ix.entries, e.handles.length ≤ 1) ∧
    (((NewRelation schema name attrs pkNames).applyInserts ts).CheckPrimaryKey t
        = .ok false ↔
      ∃ p ∈ ((NewRelation schema name attrs pkNames).applyInserts ts).rows,
        ((NewRelation schema name attrs pkNames).applyInserts ts).pk.map
            (fun i => p.2.values.getD i SqlValue.null)
          = ((NewRelation schema name attrs pkNames).applyInserts ts).pk.map
            (fun i => t.values.getD i SqlValue.null)) := by
  obtain ⟨hpkeq, ⟨hd, rest, hieq, hdnm, hdidx, hrest⟩, hAM, hIR⟩ :=
    checkedInserts_pk_invariant schema name attrs pkNames ts hpk hfound
  refine ⟨hAM, ?_⟩
  have hIRhd := hIR hd (by rw [hieq]; exact List.mem_cons_self _ _)
  have hpkne : ((NewRelation schema name attrs pkNames).applyInserts ts).pk ≠ [] := by
    rw [hpkeq]
    simpa using hpk
  have hkeys : ∀ (u : Tuple), hd.keyOf u
      = ((NewRelation schema name attrs pkNames).applyInserts ts).pk.map
          (fun i => u.values.getD i SqlValue.null) := by
    intro u
    unfold HashIndex.keyOf
    rw [hdidx, hpkeq]
  unfold Relation.CheckPrimaryKey
  rw [if_neg (by simpa [List.isEmpty_iff] using hpkne)]
  rw [hieq]
  rw [List.find?_cons_of_pos (p := fun j : HashIndex => hasPkNamePre j.name) _ hdnm]
  dsimp only
  cases hg : hd.Get (((NewRelation schema name attrs pkNames).applyInserts ts).pk.map
      (fun idx => t.values.getD idx SqlValue.null)) with
  | none =>
    apply iff_of_false
    · simp
    · rintro ⟨p, hp, hk⟩
      have : (hd.Get (hd.keyOf t)).isSome = true := by
        apply (hIRhd (hd.keyOf t)).mpr
        exact ⟨p, hp, by rw [hkeys p.2, hkeys t]; exact hk⟩
      rw [hkeys t, hg] at this
      cases this
  | some v =>
    apply iff_of_true
    · rfl
    · have : (hd.Get (hd.keyOf t)).isSome = true := by
        rw [hkeys t, hg]; rfl
      rcases (hIRhd (hd.keyOf t)).mp this with ⟨p, hp, hk⟩
      refine ⟨p, hp, ?_⟩
      rw [← hkeys p.2, ← hkeys t]
      exact hk

/-- Witness for the amended C6: at the `users` relation the at-most-one
invariant holds, and a candidate with a fresh id conflicts exactly when the
stored primary key matches. -/
theorem claim_C6_witness :
    (∀ ix ∈ usersRel.indexes,
        (hasPkNamePre ix.name || hasUniqueNamePre ix.name) = true →
        ∀ e ∈ ix.entries, e.handles.length ≤ 1) ∧
    (usersRel.CheckPrimaryKey ⟨[SqlValue.int 1, SqlValue.text "b"]⟩ = .ok false ↔
      ∃ p ∈ usersRel.rows,
        usersRel.pk.map (fun i => p.2.values.getD i SqlValue.null)
          = usersRel.pk.map (fun i =>
              (⟨[SqlValue.int 1, SqlValue.text "b"]⟩ : Tuple).values.getD i SqlValue.null)) :=
  claim_C6_amended "public" "users"
    [NewAttribute "id" "int", (NewAttribute "email" "text").WithUnique] ["id"]
    [⟨[SqlValue.int 1, SqlValue.text "a"]⟩] ⟨[SqlValue.int 1, SqlValue.text "b"]⟩
    (by decide) (by decide)

/-- C2: deleting (or updating) a parent row is rejected with `foreign key
restrict` exactly when some child row's FK columns jointly equal ALL of the
parent row's referenced column values; a parent row matching the composite
key only partially can be deleted.  The child is any relation populated by
checked inserts whose FK indexes are the ones `NewRelation` creates. -/
theorem claim_C2 (cs cn : String) (cattrs : List Attribute) (cpk : List String)
    (cts : List Tuple) (parent : Relation) (t : Tuple)
    (hix : ∀ fk ∈ fksReferencing ((NewRelation cs cn cattrs cpk).applyInserts cts) parent,
      (((NewRelation cs cn cattrs cpk).applyInserts cts).indexes.find?
          (fun j => j.attrsName == fk.localColumns)).map HashIndex.attrsIdx
        = some (fk.localColumns.map (fun c =>
            (attrIndexOf ((NewRelation cs cn cattrs cpk).applyInserts cts).attributes c).getD 0))) :
    checkFkRestrict parent ((NewRelation cs cn cattrs cpk).applyInserts cts) t
        = .error "foreign key restrict" ↔
      ∃ fk ∈ fksReferencing ((NewRelation cs cn cattrs cpk).applyInserts cts) parent,
        ∃ p ∈ ((NewRelation cs cn cattrs cpk).applyInserts cts).rows,
          composedFkVals ((NewRelation cs cn cattrs cpk).applyInserts cts) fk p.2
            = fkParentVals fk parent t := by
  unfold checkFkRestrict
  have hprobe : ∀ fk ∈ fksReferencing ((NewRelation cs cn cattrs cpk).applyInserts cts) parent,
      (restrictProbe parent ((NewRelation cs cn cattrs cpk).applyInserts cts) t fk = true ↔
        ∃ p ∈ ((NewRelation cs cn cattrs cpk).applyInserts cts).rows,
          composedFkVals ((NewRelation cs cn cattrs cpk).applyInserts cts) fk p.2
            = fkParentVals fk parent t) := by
    intro fk hfk
    have hmap := hix fk hfk
    cases hfind : ((NewRelation cs cn cattrs cpk).applyInserts cts).indexes.find?
        (fun j => j.attrsName == fk.localColumns) with
    | none => rw [hfind] at hmap; cases hmap
    | some ix =>
      rw [hfind] at hmap
      simp only [Option.map_some', Option.some.injEq] at hmap
      have hiff := applyInserts_indexRowsIff cs cn cattrs cpk cts ix
        (List.mem_of_find?_eq_some hfind)
      unfold restrictProbe
      rw [hfind]
      rw [hiff (fkParentVals fk parent t)]
      have hkey : ∀ (u : Tuple), ix.keyOf u
          = composedFkVals ((NewRelation cs cn cattrs cpk).applyInserts cts) fk u := by
        intro u
        unfold HashIndex.keyOf composedFkVals
        rw [hmap, List.map_map]
        rfl
      constructor
      · rintro ⟨p, hp, hk⟩
        exact ⟨p, hp, by rw [← hkey p.2]; exact hk⟩
      · rintro ⟨p, hp, hk⟩
        exact ⟨p, hp, by rw [hkey p.2]; exact hk⟩
  constructor
  · intro herr
    by_cases hany : (fksReferencing ((NewRelation cs cn cattrs cpk).applyInserts cts)
        parent).any (restrictProbe parent ((NewRelation cs cn cattrs cpk).applyInserts cts) t) = true
    · rcases List.any_eq_true.mp hany with ⟨fk, hfk, hp⟩
      exact ⟨fk, hfk, (hprobe fk hfk).mp hp⟩
    · rw [if_neg hany] at herr
      cases herr
  · rintro ⟨fk, hfk, hmatch⟩
    rw [if_pos (List.any_eq_true.mpr ⟨fk, hfk, (hprobe fk hfk).mpr hmatch⟩)]

/-- Witness for C2 at the composite-FK scenario: with parents
`('cat','catalog1')`, `('cat','catalog2')` and one child referencing
`('cat','catalog1')`, deleting the referenced parent is rejected and the
partially-matching parent can be deleted. -/
theorem claim_C2_witness :
    checkFkRestrict categoriesRel2 controlsRel1 ⟨[SqlValue.text "cat", SqlValue.text "catalog1"]⟩
        = .error "foreign key restrict" ∧
    checkFkRestrict categoriesRel2 controlsRel1 ⟨[SqlValue.text "cat", SqlValue.text "catalog2"]⟩
        = .ok () := by
  constructor
  · exact (claim_C2 "public" "controls" controlsAttrs ["id"]
      [⟨[SqlValue.text "c1", SqlValue.text "cat", SqlValue.text "catalog1"]⟩]
      categoriesRel2 ⟨[SqlValue.text "cat", SqlValue.text "catalog1"]⟩
      (by decide)).mpr (by decide)
  · rfl

/-- C3: an INSERT (or UPDATE) setting foreign-key columns fails with
`foreign key violation` exactly when the composed tuple of FK column values
matches no parent row on the referenced columns; in particular with the
composite FK `(category_name, category_catalog_id) REFERENCES
categories(name, catalog_id)` and parent row `('category-1','catalog-1')`,
a child row carrying `('category-1','wrong-catalog')` is rejected. -/
theorem claim_C3 (ps pn : String) (pattrs : List Attribute) (ppk : List String)
    (pts : List Tuple) (child : Relation) (fk : ForeignKey) (t : Tuple)
    (hix : (((NewRelation ps pn pattrs ppk).applyInserts pts).indexes.find?
        (fun j => j.attrsName == fkRefCols fk ((NewRelation ps pn pattrs ppk).applyInserts pts))).map
          HashIndex.attrsIdx
        = some ((fkRefCols fk ((NewRelation ps pn pattrs ppk).applyInserts pts)).map (fun c =>
            (attrIndexOf ((NewRelation ps pn pattrs ppk).applyInserts pts).attributes c).getD 0))) :
    checkFkExistence child fk ((NewRelation ps pn pattrs ppk).applyInserts pts) t
        = .error "foreign key violation" ↔
      ¬ ∃ p ∈ ((NewRelation ps pn pattrs ppk).applyInserts pts).rows,
          fkParentVals fk ((NewRelation ps pn pattrs ppk).applyInserts pts) p.2
            = composedFkVals child fk t := by
  cases hfind : ((NewRelation ps pn pattrs ppk).applyInserts pts).indexes.find?
      (fun j => j.attrsName == fkRefCols fk ((NewRelation ps pn pattrs ppk).applyInserts pts)) with
  | none => rw [hfind] at hix; cases hix
  | some ix =>
    rw [hfind] at hix
    simp only [Option.map_some', Option.some.injEq] at hix
    have hiff := applyInserts_indexRowsIff ps pn pattrs ppk pts ix
      (List.mem_of_find?_eq_some hfind)
    have hkey : ∀ (u : Tuple), ix.keyOf u
        = fkParentVals fk ((NewRelation ps pn pattrs ppk).applyInserts pts) u := by
      intro u
      unfold HashIndex.keyOf fkParentVals
      rw [hix, List.map_map]
      rfl
    have heq : checkFkExistence child fk ((NewRelation ps pn pattrs ppk).applyInserts pts) t
        = (match ix.Get (composedFkVals child fk t) with
           | none => Except.error "foreign key violation"
           | some _ => Except.ok ()) := by
      unfold checkFkExistence
      rw [hfind]
      rfl
    rw [heq]
    cases hg : ix.Get (composedFkVals child fk t) with
    | none =>
      apply iff_of_true
      · rfl
      · rintro ⟨p, hp, hk⟩
        have hs : (ix.Get (composedFkVals child fk t)).isSome = true :=
          (hiff _).mpr ⟨p, hp, by rw [hkey p.2]; exact hk⟩
        rw [hg] at hs
        cases hs
    | some v =>
      apply iff_of_false
      · simp
      · intro hne
        rcases (hiff (composedFkVals child fk t)).mp (by rw [hg]; rfl) with ⟨p, hp, hk⟩
        exact hne ⟨p, hp, by rw [← hkey p.2]; exact hk⟩

/-- Witness for C3 at the composite-FK scenario: the violating child tuple
is rejected and the matching one passes. -/
theorem claim_C3_witness :
    checkFkExistence controlsRel0 controlsFk categoriesRel3
        ⟨[SqlValue.text "control-2", SqlValue.text "category-1", SqlValue.text "wrong-catalog"]⟩
        = .error "foreign key violation" ∧
    checkFkExistence controlsRel0 controlsFk categoriesRel3
        ⟨[SqlValue.text "control-1", SqlValue.text "category-1", SqlValue.text "catalog-1"]⟩
        = .ok () := by
  constructor
  · exact (claim_C3 "public" "categories" categoriesAttrs ["name", "catalog_id"]
      [⟨[SqlValue.text "category-1", SqlValue.text "catalog-1"]⟩]
      controlsRel0 controlsFk
      ⟨[SqlValue.text "control-2", SqlValue.text "category-1", SqlValue.text "wrong-catalog"]⟩
      (by decide)).mpr (by decide)
  · rfl

/-- C5: a NULL operand makes every SQL comparison "unequal" — equality is
false and distinctness true, even between two NULLs — while the predicates
built by `isExecutor` for `IS NULL` / `IS NOT NULL` (which go through the
distinct `NewEqPredicate` constructor, not `NewComparisonPredicate`) hold
exactly on the rows whose attribute value is / is not NULL. -/
theorem claim_C5 (cols : List String) (t : Tuple) (rname aname : String) (i : Nat)
    (hcol : cols.indexOf? aname = some i) (l r : ValueFunctor)
    (hnull : l.eval cols t = SqlValue.null ∨ r.eval cols t = SqlValue.null) :
    (Predicate.eval (.comparison l .Eq r) cols t = false ∧
     Predicate.eval (.comparison l .Neq r) cols t = true) ∧
    (∃ p, isExecutor rname aname isNullDecl = .ok p ∧
        (p.eval cols t = true ↔ t.values.getD i SqlValue.null = SqlValue.null)) ∧
    (∃ q, isExecutor rname aname isNotNullDecl = .ok q ∧
        (q.eval cols t = true ↔ t.values.getD i SqlValue.null ≠ SqlValue.null)) := by
  refine ⟨?_, ?_, ?_⟩
  · rcases hnull with hl | hr
    · simp only [Predicate.eval, hl]
      cases r.eval cols t <;> exact ⟨rfl, rfl⟩
    · simp only [Predicate.eval, hr]
      cases l.eval cols t <;> exact ⟨rfl, rfl⟩
  · refine ⟨_, rfl, ?_⟩
    simp [Predicate.eval, ValueFunctor.eval, hcol]
  · refine ⟨_, rfl, ?_⟩
    simp [Predicate.eval, ValueFunctor.eval, hcol]

/-- Witness for C5 at a one-column row holding NULL: `NULL = NULL` is
false, `NULL <> NULL` is true, `IS NULL` holds and `IS NOT NULL` does
not. -/
theorem claim_C5_witness :
    (["a"].indexOf? "a" = some 0) ∧
    ((ValueFunctor.const SqlValue.null).eval ["a"] ⟨[SqlValue.null]⟩ = SqlValue.null ∨
     (ValueFunctor.const SqlValue.null).eval ["a"] ⟨[SqlValue.null]⟩ = SqlValue.null) ∧
    (Predicate.eval (.comparison (.const SqlValue.null) .Eq (.const SqlValue.null))
        ["a"] ⟨[SqlValue.null]⟩ = false ∧
     Predicate.eval (.comparison (.const SqlValue.null) .Neq (.const SqlValue.null))
        ["a"] ⟨[SqlValue.null]⟩ = true) ∧
    (∃ p, isExecutor "t" "a" isNullDecl = .ok p ∧
        (p.eval ["a"] ⟨[SqlValue.null]⟩ = true ↔
          (⟨[SqlValue.null]⟩ : Tuple).values.getD 0 SqlValue.null = SqlValue.null)) ∧
    (∃ q, isExecutor "t" "a" isNotNullDecl = .ok q ∧
        (q.eval ["a"] ⟨[SqlValue.null]⟩ = true ↔
          (⟨[SqlValue.null]⟩ : Tuple).values.getD 0 SqlValue.null ≠ SqlValue.null)) := by
  refine ⟨by decide, Or.inl rfl, ?_⟩
  exact claim_C5 ["a"] ⟨[SqlValue.null]⟩ "t" "a" 0 (by decide)
    (.const SqlValue.null) (.const SqlValue.null) (Or.inl rfl)

end RamSql
